import Mathlib

/-!
# Layered image export (`graph/export.go`)

A shallow embedding of `TagStore.CmdImageExport` and `TagStore.exportImage`.

The export works on a freshly created staging directory.  Every image that is
walked gets a subdirectory named after its ID; the directory creation outcome
is the deduplication test.  The external collaborators (file system, engine
jobs, tag store lookups, archiver, output stream) appear as the fields of
`World`: each fallible operation asks `World.fail` whether it fails, and the
values the code reads back (`img.ID`, the `Parent` field) come from
`World.image` and `World.parent`.

Go maps are association lists: the list order is the order in which `range`
visits the entries, and the keys of a well formed map are pairwise distinct
(`WFCatalog`).

The directory of a walked name `n` is `path.Join(tempdir, n)`: the name is split at
its slashes and cleaned (`pathJoin`), so a name such as `.`, `..`, `A/` or `A/VERSION`
may denote a path that is there already, and a name such as `../foo` a path outside
the staging directory.  `os.Mkdir` reports "already exists" for every path that is
there (`occupied`); all its other errors, a missing parent directory among them, are
answers of `World.fail`.
-/

namespace Graph

/-- An image ID (an opaque string). -/
abbrev ImageID := String

/-- An error value (its message). -/
abbrev Err := String

/-- The Go type `Repository`: tag name to image ID. -/
abbrev Repository := List (String × ImageID)

/-- The Go type `map[string]Repository`: repository name to repository. -/
abbrev RepoMap := List (String × Repository)

/-- The fallible operations performed by the export, in the order of the source text.
`walk n` is not an operation of its own: it marks the entry into `exportImage` with
start name `n` and never fails. -/
inductive Op where
  | tempDir
  | lookup (name : String)
  | walk (n : ImageID)
  | mkdir (n : ImageID)
  | writeVersion (n : ImageID)
  | createJson (n : ImageID)
  | inspect (n : ImageID)
  | createLayer (n : ImageID)
  | tarlayer (n : ImageID)
  | imageGet (n : ImageID)
  | writeRepositories
  | tar
  | copy
  deriving DecidableEq, Repr

/-- How an operation ended: it succeeded, `os.Mkdir` found the directory already
there (`os.IsExist`), or it failed with an error. -/
inductive Res where
  | ok
  | existed
  | err (e : Err)
  deriving DecidableEq, Repr

/-- One entry of the log of operations. -/
structure Event where
  op : Op
  res : Res
  deriving DecidableEq, Repr

/-- A cleaned rooted path, as the list of its elements. -/
abbrev Path := List String

/-- Split a string at every slash. -/
def splitSlash : List Char → List (List Char)
  | [] => [[]]
  | c :: cs =>
    if c = '/' then [] :: splitSlash cs
    else
      match splitSlash cs with
      | [] => [[c]]
      | x :: xs => (c :: x) :: xs

/-- The elements of a slash separated name. -/
def components (n : String) : List String :=
  (splitSlash n.toList).map String.mk

/-- One element of a path being cleaned (`path.Clean`): empty elements and `.` are
dropped, `..` removes the element before it (and is dropped at the root). -/
def pathStep (acc : Path) (c : String) : Path :=
  if c = "" ∨ c = "." then acc
  else if c = ".." then acc.dropLast
  else acc ++ [c]

/-- The cleaned path `path.Join(base, n)` for a rooted `base`. -/
def pathJoin (base : Path) (n : String) : Path :=
  (components n).foldl pathStep base

/-- The name is a single path element: not empty, not `.` or `..`, without slash. -/
def plain (n : String) : Bool :=
  decide (n ≠ "" ∧ n ≠ "." ∧ n ≠ ".." ∧ '/' ∉ n.toList)

/-- The path `root` is `p` or lies above it: `root` is an initial segment of `p`. -/
def below : Path → Path → Bool
  | [], _ => true
  | _ :: _, [] => false
  | a :: as, b :: bs => decide (a = b) && below as bs

/-- The paths made for the walked names `dirs`: for each name its directory and the
three files in it. -/
def imagePaths (tempdir : Path) : List String → List Path
  | [] => []
  | m :: ms =>
    pathJoin tempdir m :: (pathJoin tempdir m ++ ["VERSION"]) ::
      (pathJoin tempdir m ++ ["json"]) :: (pathJoin tempdir m ++ ["layer.tar"]) ::
      imagePaths tempdir ms

/-- The collaborators of one export call.

* `normalize` is `registry.NormalizeLocalName`;
* `Repositories` is `s.Repositories`; a name is a key exactly when `s.Repositories[name]`
  is not nil (a repository may have no tags);
* `image name` is the ID of the image returned by `s.LookupImage(name)`, `none` for a nil image;
* `parent n` is the `Parent` field delivered by the `image_get` job for `n`;
* `fail op` is the error with which `op` fails, `none` when it succeeds
  (for `mkdir` it covers every error other than "already exists");
* `archive dirs repositories` is the byte stream `archive.Tar` produces for the staging tree;
* `copied` is the number of bytes `io.Copy` has handed to the output when it fails;
* `tempdir` is the rooted path of the fresh directory made by `ioutil.TempDir`;
* `present p` tells whether the path `p`, outside the staging directory, was there
  before the call.

The image store names its images by well formed IDs.  A string that is not a valid ID
is passed through by the resolution and the serializer fails for it (section 4.1 of the
specification): the metadata of a name can be fetched only if the name is a single path
element (`known_plain`).  An image has at most one parent, given by its ID or empty
(section 3): the `Parent` field is empty or a single path element (`parent_plain`).
Request strings, tag values and looked-up IDs are arbitrary strings. -/
structure World where
  jobName : String
  normalize : String → String
  Repositories : RepoMap
  image : String → Option ImageID
  parent : ImageID → ImageID
  fail : Op → Option Err
  archive : List ImageID → Option RepoMap → List Nat
  copied : Nat
  tempdir : Path
  present : Path → Bool
  known_plain : ∀ n, fail (.inspect n) = none → plain n = true
  parent_plain : ∀ n, parent n = "" ∨ plain (parent n) = true

/-- The state of one export call: the names for which `os.Mkdir` made an image
directory, in the order of their creation, the `repositories` file at the root of the
staging directory (if written), the variable `repoMap`, the log of operations, and the
bytes received by `job.Stdout`. -/
structure State where
  dirs : List ImageID
  repositories : Option RepoMap
  repoMap : RepoMap
  trace : List Event
  sink : List Nat
  deriving DecidableEq, Repr

/-- The state right after `ioutil.TempDir` and `repoMap := map[string]Repository{}`. -/
def State.init : State := ⟨[], none, [], [], []⟩

/-- Append an entry to the log. -/
def State.log (st : State) (op : Op) (r : Res) : State :=
  { st with trace := st.trace ++ [⟨op, r⟩] }

/-- Go's `m[k] = v` on an association list. -/
def mapSet {V : Type} : List (String × V) → String → V → List (String × V)
  | [], k, v => [(k, v)]
  | (k', v') :: rest, k, v => if k' = k then (k, v) :: rest else (k', v') :: mapSet rest k v

/-- Lines 135-139 of `exportImage`: record `tag -> id` under `repoName` in `repoMap`,
creating the repository entry on first reference. -/
def recordTag (repoMap : RepoMap) (repoName tag : String) (id : ImageID) : RepoMap :=
  match repoMap.lookup repoName with
  | none => mapSet repoMap repoName [(tag, id)]
  | some repo => mapSet repoMap repoName (mapSet repo tag id)

/-- Lines 133-141: the inner loop over the tags of one repository. -/
def scanRepository (repoName : String) (n : ImageID) (repo : Repository) (repoMap : RepoMap) :
    RepoMap :=
  repo.foldl (fun rm p => if p.2 = n then recordTag rm repoName p.1 p.2 else rm) repoMap

/-- Lines 132-142: the loop over all known repositories. -/
def scanRepositories (repos : RepoMap) (n : ImageID) (repoMap : RepoMap) : RepoMap :=
  repos.foldl (fun rm p => scanRepository p.1 n p.2 rm) repoMap

/-- Run fallible operations one after the other; the first failure is returned at once. -/
def runOps (w : World) : List Op → State → Option Err × State
  | [], st => (none, st)
  | op :: ops, st =>
    match w.fail op with
    | some e => (some e, st.log op (.err e))
    | none => runOps w ops (st.log op .ok)

/-- Lines 104-129: the writes into the fresh image directory `n`. -/
def serialOps (n : ImageID) : List Op :=
  [.writeVersion n, .createJson n, .inspect n, .createLayer n, .tarlayer n]

/-- All operations of one pass through the loop body, in order. -/
def stepOps (n : ImageID) : List Op :=
  .mkdir n :: serialOps n ++ [.imageGet n]

/-- The log entries of operations that all succeeded. -/
def okEvents (ops : List Op) : List Event :=
  ops.map (fun op => ⟨op, .ok⟩)

/-- What the loop of `exportImage` does after one pass through its body. -/
inductive Next where
  | stop (r : Option Err)
  | next (n : ImageID)
  deriving DecidableEq, Repr

/-- The path `path.Join(tempdir, n)` is there already: it is the staging directory or
lies above it, or it is one of the paths made for the names walked so far, or it lies
outside the staging directory and was there before the call. -/
def occupied (w : World) (dirs : List ImageID) (n : ImageID) : Bool :=
  below (pathJoin w.tempdir n) w.tempdir ||
    decide (pathJoin w.tempdir n ∈ imagePaths w.tempdir dirs) ||
    (!below w.tempdir (pathJoin w.tempdir n) && w.present (pathJoin w.tempdir n))

/-- Lines 92-150: one pass through the body of the loop of `exportImage`, for `n ≠ ""`.
`os.Mkdir(path.Join(tempdir, n))` finds the path there already (`occupied`), fails with
another error (`fail (.mkdir n)`), or makes the directory; then the three files are
written, the repositories are scanned and the parent is fetched. -/
def exportStep (w : World) (n : ImageID) (st : State) : Next × State :=
  if occupied w st.dirs n then
    (.stop none, st.log (.mkdir n) .existed)
  else
    match w.fail (.mkdir n) with
    | some e => (.stop (some e), st.log (.mkdir n) (.err e))
    | none =>
      let st1 := { st.log (.mkdir n) .ok with dirs := st.dirs ++ [n] }
      match runOps w (serialOps n) st1 with
      | (some e, st2) => (.stop (some e), st2)
      | (none, st2) =>
        let st3 := { st2 with repoMap := scanRepositories w.Repositories n st2.repoMap }
        match w.fail (.imageGet n) with
        | some e => (.stop (some e), st3.log (.imageGet n) (.err e))
        | none => (.next (w.parent n), st3.log (.imageGet n) .ok)

/-- Lines 91-152: the loop `for n := name; n != ""; { ... }`.  The fuel bounds the number
of passes through the body; `none` means the fuel ran out before the loop ended. -/
def exportLoop (w : World) : Nat → ImageID → State → Option (Option Err × State)
  | 0, n, st => if n = "" then some (none, st) else none
  | fuel + 1, n, st =>
    if n = "" then some (none, st)
    else
      match exportStep w n st with
      | (.stop r, st') => some (r, st')
      | (.next p, st') => exportLoop w fuel p st'

/-- The method `exportImage`, lines 90-153. -/
def exportImage (w : World) (fuel : Nat) (name : ImageID) (st : State) :
    Option (Option Err × State) :=
  exportLoop w fuel name (st.log (.walk name) .ok)

/-- Lines 40-44: `for _, id := range rootRepo`. -/
def exportAll (w : World) (fuel : Nat) : List ImageID → State → Option (Option Err × State)
  | [], st => some (none, st)
  | id :: ids, st =>
    match exportImage w fuel id st with
    | none => none
    | some (some e, st') => some (some e, st')
    | some (none, st') => exportAll w fuel ids st'

/-- Lines 35-63: the body of the loop over `job.Args`. -/
def exportRef (w : World) (fuel : Nat) (arg : String) (st : State) :
    Option (Option Err × State) :=
  let name := w.normalize arg
  match w.Repositories.lookup name with
  | some rootRepo => exportAll w fuel (rootRepo.map Prod.snd) st
  | none =>
    match w.fail (.lookup name) with
    | some e => some (some e, st.log (.lookup name) (.err e))
    | none =>
      match w.image name with
      | some id => exportImage w fuel id (st.log (.lookup name) .ok)
      | none => exportImage w fuel name (st.log (.lookup name) .ok)

/-- Lines 34-64: `for _, name := range job.Args`. -/
def exportRefs (w : World) (fuel : Nat) : List String → State → Option (Option Err × State)
  | [], st => some (none, st)
  | arg :: args, st =>
    match exportRef w fuel arg st with
    | none => none
    | some (some e, st') => some (some e, st')
    | some (none, st') => exportRefs w fuel args st'

/-- Lines 66-74: write the `repositories` file if there is something to write. -/
def writeRepositories (w : World) (st : State) : Option Err × State :=
  if st.repoMap.length > 0 then
    match w.fail .writeRepositories with
    | some e => (some e, st.log .writeRepositories (.err e))
    | none => (none, { st.log .writeRepositories .ok with repositories := some st.repoMap })
  else (none, st)

/-- Lines 76-86: pack the staging directory and copy the stream to `job.Stdout`. -/
def emit (w : World) (st : State) : Option Err × State :=
  match w.fail .tar with
  | some e => (some e, st.log .tar (.err e))
  | none =>
    let st1 := st.log .tar .ok
    let fs := w.archive st1.dirs st1.repositories
    match w.fail .copy with
    | some e => (some e, { st1.log .copy (.err e) with sink := st1.sink ++ fs.take w.copied })
    | none => (none, { st1.log .copy .ok with sink := st1.sink ++ fs })

/-- Lines 66-86: what follows the loop over the references. -/
def finish (w : World) (st : State) : Option Err × State :=
  match writeRepositories w st with
  | (some e, st1) => (some e, st1)
  | (none, st1) => emit w st1

/-- Lines 32-86: everything after the staging directory exists. -/
def exportBody (w : World) (fuel : Nat) (args : List String) (st : State) :
    Option (Option Err × State) :=
  match exportRefs w fuel args st with
  | none => none
  | some (some e, st1) => some (some e, st1)
  | some (none, st1) => some (finish w st1)

/-- The usage message of line 23. -/
def usage (w : World) : Err := "Usage: " ++ w.jobName ++ " IMAGE [IMAGE...]\n"

/-- The paths a log entry made: the staging directory, an image directory, one of its
files, or the `repositories` file. -/
def madeBy (w : World) (ev : Event) : List Path :=
  match ev.res with
  | .ok =>
    match ev.op with
    | .tempDir => [w.tempdir]
    | .mkdir n => [pathJoin w.tempdir n]
    | .writeVersion n => [pathJoin w.tempdir n ++ ["VERSION"]]
    | .createJson n => [pathJoin w.tempdir n ++ ["json"]]
    | .createLayer n => [pathJoin w.tempdir n ++ ["layer.tar"]]
    | .writeRepositories => [w.tempdir ++ ["repositories"]]
    | _ => []
  | _ => []

/-- All paths made during a run, in the order of the log. -/
def created (w : World) : List Event → List Path
  | [] => []
  | ev :: evs => madeBy w ev ++ created w evs

/-- What `os.RemoveAll(root)` leaves of a list of paths: those not at or below `root`. -/
def removeAll (root : Path) (paths : List Path) : List Path :=
  paths.filter (fun p => !below root p)

/-- What a call of `CmdImageExport` leaves behind: its status (`none` is
`engine.StatusOK`), the state of the call at the moment it returned (the staging tree as
it stood before the deferred clean-up), and the paths made by the call that are still on
disk after the deferred `os.RemoveAll(tempdir)`. -/
structure Outcome where
  status : Option Err
  final : State
  disk : List Path
  deriving DecidableEq, Repr

/-- The job `CmdImageExport`, lines 21-87.  The clean-up of line 30 is deferred once the
staging directory exists and runs on every return after it; its own result is dropped
by the code, and it is taken to remove the staging directory with all that is below. -/
def CmdImageExport (w : World) (fuel : Nat) (args : List String) : Option Outcome :=
  if args.length < 1 then
    some ⟨some (usage w), State.init, []⟩
  else
    match w.fail .tempDir with
    | some e => some ⟨some e, State.init.log .tempDir (.err e), []⟩
    | none =>
      match exportBody w fuel args (State.init.log .tempDir .ok) with
      | none => none
      | some (r, st) => some ⟨r, st, removeAll w.tempdir (created w st.trace)⟩

/-! ## Vocabulary of the specification -/

/-- The keys of a Go map are pairwise distinct: this holds for the repository catalog
and for every repository in it. -/
def WFCatalog (repos : RepoMap) : Prop :=
  (repos.map Prod.fst).Nodup ∧ ∀ p ∈ repos, (p.2.map Prod.fst).Nodup

/-- The image ID to which the map `m` sends tag `t` of repository `r`, if any. -/
def tagOf (m : RepoMap) (r t : String) : Option ImageID :=
  (m.lookup r).bind (fun repo => repo.lookup t)

/-- The image IDs a reference resolves to (section 4.1 of the specification): all tag
values of the repository of that name, else the looked-up image, else the string itself. -/
def resolveRef (w : World) (arg : String) : List ImageID :=
  match w.Repositories.lookup (w.normalize arg) with
  | some repo => repo.map Prod.snd
  | none =>
    match w.image (w.normalize arg) with
    | some id => [id]
    | none => [w.normalize arg]

/-- The image `m` belongs to the ancestry chain of `n`: it is reached from `n` by
repeated `parent` before the empty parent marker. -/
inductive InChain (w : World) : ImageID → ImageID → Prop
  | start (n : ImageID) : n ≠ "" → InChain w n n
  | step (n m : ImageID) : n ≠ "" → InChain w (w.parent n) m → InChain w n m

/-- The first `k` members of the ancestry chain of `n`, the image itself first. -/
def chain (w : World) : Nat → ImageID → List ImageID
  | 0, _ => []
  | k + 1, n => if n = "" then [] else n :: chain w k (w.parent n)

/-- Append to `acc` the members of a list that are not yet in it, in the order of their
first occurrence. -/
def firstSeen : List ImageID → List ImageID → List ImageID
  | acc, [] => acc
  | acc, x :: xs => firstSeen (if x ∈ acc then acc else acc ++ [x]) xs

/-- The start IDs of all walks of a request, in the order of the request. -/
def starts (w : World) : List String → List ImageID
  | [] => []
  | arg :: args => resolveRef w arg ++ starts w args

/-- The sequence in which a request meets images: walk after walk, each chain from the
start image towards its ancestors. -/
def encounter (w : World) (k : Nat) : List ImageID → List ImageID
  | [] => []
  | s :: ss => chain w k s ++ encounter w k ss

/-- Every member of `D` has an empty parent or a parent in `D`. -/
def Closed (w : World) (D : List ImageID) : Prop :=
  ∀ m ∈ D, w.parent m = "" ∨ w.parent m ∈ D

/-- The number of log entries for operation `op`. -/
def opCount (op : Op) (tr : List Event) : Nat :=
  List.count op (tr.map (fun ev => ev.op))

/-- The number of passes through the loop body recorded in a log: every pass begins
with its `os.Mkdir`. -/
def passes (tr : List Event) : Nat :=
  tr.countP (fun ev => match ev.op with
    | .mkdir _ => true
    | _ => false)

/-- The log records no failure. -/
def NoErr (tr : List Event) : Prop :=
  ∀ ev ∈ tr, ∀ e, ev.res ≠ .err e

/-- The start names of the walks recorded in a log. -/
def walkStarts : List Event → List ImageID
  | [] => []
  | ⟨.walk n, _⟩ :: evs => n :: walkStarts evs
  | _ :: evs => walkStarts evs

/-- Some repository of the list `repos` named `r` has tag `t` pointing at `n`. -/
def tagged (repos : RepoMap) (r t : String) (n : ImageID) : Prop :=
  ∃ repo, (r, repo) ∈ repos ∧ (t, n) ∈ repo

/-- Every repository held in the map has at least one tag. -/
def NoEmptyRepo (m : RepoMap) : Prop :=
  ∀ p ∈ m, p.2 ≠ []

/-- Every name of the list is a single path element. -/
def AllPlain (D : List ImageID) : Prop :=
  ∀ m ∈ D, plain m = true

/-- The shape shared by the order lemmas: walks from the start names `ids` lead from
the staged list `D` to `D'`.  Without error, `D'` extends `D` by the images met on the
chains of the well formed start names, in the order of first encounter, and it is closed
and well formed; when all start names are well formed (or empty), also a run that
failed has written an initial part of that order. -/
def Walked (w : World) (fuel : Nat) (ids D : List ImageID) (r : Option Err)
    (D' : List ImageID) : Prop :=
  (r = none →
    D' = firstSeen D (encounter w fuel (ids.filter plain)) ∧ Closed w D' ∧ AllPlain D' ∧
    ∀ id ∈ ids, plain id = true → id ∈ D') ∧
  ((∀ id ∈ ids, id = "" ∨ plain id = true) →
    ∃ pre t, pre ++ t = encounter w fuel (ids.filter plain) ∧ D' = firstSeen D pre)

/-- Every write into an image directory has been attempted at most once, and only for
staged images; no directory is listed twice. -/
def WrittenOnce (st : State) : Prop :=
  st.dirs.Nodup ∧
  ∀ n, ∀ op ∈ serialOps n, opCount op st.trace ≤ if n ∈ st.dirs then 1 else 0

/-- The `repoMap` holds exactly the catalog entries that point at staged images, it
holds no empty repository, and the `repositories` file is not written yet. -/
def Reflects (w : World) (st : State) : Prop :=
  (∀ r t i, tagOf st.repoMap r t = some i ↔
    tagOf w.Repositories r t = some i ∧ i ∈ st.dirs) ∧
  NoEmptyRepo st.repoMap ∧ st.repositories = none

/-- No failure so far and nothing handed to the output. -/
def Good (st : State) : Prop :=
  NoErr st.trace ∧ st.sink = []

/-- The last log entry is the operation that failed with `e`, nothing failed before it,
and the output has received nothing unless the failed operation is the final copy. -/
def Failed (w : World) (e : Err) (st : State) : Prop :=
  ∃ pre op, st.trace = pre ++ [⟨op, .err e⟩] ∧ w.fail op = some e ∧ NoErr pre ∧
    (op ≠ .copy → st.sink = [])

/-- The error discipline of a run: `Good` while it succeeds, `Failed` once it failed. -/
def Sound (w : World) (r : Option Err) (st : State) : Prop :=
  match r with
  | none => Good st
  | some e => Failed w e st

/-- Log entries that are neither the entry into a walk nor an image lookup. -/
def Inner (new : List Event) : Prop :=
  ∀ ev ∈ new, (∀ n, ev.op ≠ .walk n) ∧ (∀ name, ev.op ≠ .lookup name)

/-- The number of image IDs of `U` that are not staged. -/
def unstaged (U : Finset ImageID) (dirs : List ImageID) : Nat :=
  (U.filter (fun m => m ∉ dirs)).card

/-- The parent relation lives on the finite set `U`: only members of `U` have a
(non-empty) parent, and that parent is in `U`. -/
def ParentsIn (w : World) (U : Finset ImageID) : Prop :=
  ∀ m, w.parent m = "" ∨ (m ∈ U ∧ w.parent m ∈ U)

/-! ## Example worlds -/

/-- The answers of a store in which nothing fails but the metadata fetch for a name
that is not a well formed ID. -/
def quietFail (op : Op) : Option Err :=
  match op with
  | .inspect n => if plain n then none else some "No such image"
  | _ => none

/-- A world in which nothing fails but the metadata fetch for ill formed names; names
are already normal, no lookup finds an image, and the staging directory is
`/tmp/docker-export-1` on an otherwise empty disk. -/
def quiet (repos : RepoMap) (parent : ImageID → ImageID)
    (hparent : ∀ n, parent n = "" ∨ plain (parent n) = true) : World where
  jobName := "image_export"
  normalize := id
  Repositories := repos
  image := fun _ => none
  parent := parent
  fail := quietFail
  archive := fun dirs _ => dirs.map String.length
  copied := 0
  tempdir := ["tmp", "docker-export-1"]
  present := fun _ => false
  known_plain := by
    intro n h
    by_cases hp : plain n = true
    · exact hp
    · simp [quietFail, hp] at h
  parent_plain := hparent

/-- The world `w` with further failures: an operation for which `extra` has an error
fails with it. -/
def World.failing (w : World) (extra : Op → Option Err) : World :=
  { w with
    fail := fun op =>
      match extra op with
      | some e => some e
      | none => w.fail op
    known_plain := by
      intro n h
      apply w.known_plain
      cases hx : extra (.inspect n) with
      | some e => simp [hx] at h
      | none => simpa [hx] using h }

/-- The scenario of the specification: repository `busybox` tags `A` twice, `A` has parent `B`. -/
def busybox : World :=
  quiet [("busybox", [("latest", "A"), ("1.0", "A")])]
    (fun n => if n = "A" then "B" else "")
    (fun n => by by_cases h : n = "A" <;> simp [h]; decide)

/-- Image `X` has parent `Y`, and `Y` is a root; there are no repositories. -/
def lineage : World :=
  quiet [] (fun n => if n = "X" then "Y" else "")
    (fun n => by by_cases h : n = "X" <;> simp [h]; decide)

/-- A catalog with two repository names that tag the same image `A`, one of them with
a further tag at another image `C`. -/
def shared : World :=
  quiet [("busybox", [("latest", "A"), ("old", "C")]), ("alpine", [("edge", "A")])]
    (fun n => if n = "A" then "B" else "")
    (fun n => by by_cases h : n = "A" <;> simp [h]; decide)

/-- The output stream breaks after one byte: `io.Copy` fails with `broken pipe`. -/
def brokenPipe : World :=
  { lineage.failing (fun op => match op with
      | .copy => some "broken pipe"
      | _ => none) with
    copied := 1 }

/-- The metadata of `Y` cannot be fetched: `image_inspect` fails for it. -/
def lostParent : World :=
  lineage.failing (fun op => match op with
    | .inspect "Y" => some "No such image: Y"
    | _ => none)

/-- A parent relation with a cycle: `A` and `B` are each the parent of the other. -/
def cyclic : World :=
  quiet [] (fun n => if n = "A" then "B" else if n = "B" then "A" else "")
    (fun n => by
      by_cases hA : n = "A"
      · simp [hA]; decide
      · by_cases hB : n = "B" <;> simp [hA, hB]; decide)

/-- Only `X` and `Y` are images known to the metadata collaborator; the catalog has the
repository `empty`, which has no tags. -/
def strict : World :=
  (quiet [("empty", [])] (fun n => if n = "X" then "Y" else "")
    (fun n => by by_cases h : n = "X" <;> simp [h]; decide)).failing
    (fun op => match op with
      | .inspect "X" => none
      | .inspect "Y" => none
      | .inspect _ => some "No such image"
      | _ => none)

/-- Repository `busybox` has the tags `a` and `b` at the images `A` and `B`; the
metadata of `A` cannot be fetched. -/
def halted : World :=
  (quiet [("busybox", [("a", "A"), ("b", "B")])] (fun _ => "") (fun _ => Or.inl rfl)).failing
    (fun op => match op with
      | .inspect "A" => some "No such image: A"
      | _ => none)

/-- The lookup of `busybox:latest` finds the image `X`, whose parent is `Y`. -/
def named : World :=
  { lineage with
    image := fun name => if name = "busybox:latest" then some "X" else none }

/-! # Theorems -/

/-! ## Association lists -/

theorem lookup_cons_eq {V : Type} (k k' : String) (v : V) (m : List (String × V)) :
    List.lookup k' ((k, v) :: m) = if k' = k then some v else List.lookup k' m := by
  rw [List.lookup_cons]
  by_cases h : k' = k
  · simp [h]
  · have : (k' == k) = false := by simpa using h
    simp [h, this]

theorem lookup_mapSet {V : Type} (m : List (String × V)) (k k' : String) (v : V) :
    List.lookup k' (mapSet m k v) = if k' = k then some v else List.lookup k' m := by
  induction m with
  | nil => simp [mapSet, lookup_cons_eq]
  | cons p rest ih =>
    obtain ⟨k0, v0⟩ := p
    by_cases h0 : k0 = k
    · subst h0
      simp only [mapSet, if_true, lookup_cons_eq]
      by_cases h : k' = k0 <;> simp [h]
    · simp only [mapSet, h0, if_false, lookup_cons_eq, ih]
      by_cases h : k' = k
      · subst h
        have : ¬ k' = k0 := fun e => h0 e.symm
        simp [this]
      · simp [h]

theorem lookup_eq_some_iff_mem {V : Type} (m : List (String × V)) (k : String) (v : V)
    (hm : (m.map Prod.fst).Nodup) : List.lookup k m = some v ↔ (k, v) ∈ m := by
  induction m with
  | nil => simp
  | cons p rest ih =>
    obtain ⟨k0, v0⟩ := p
    simp only [List.map_cons, List.nodup_cons] at hm
    rw [lookup_cons_eq, List.mem_cons]
    by_cases h : k = k0
    · subst h
      simp only [if_true, Option.some.injEq, Prod.mk.injEq, true_and]
      constructor
      · intro e; exact Or.inl e.symm
      · rintro (e | hmem)
        · exact e.symm
        · exact absurd (List.mem_map_of_mem Prod.fst hmem) hm.1
    · simp only [h, if_false, Prod.mk.injEq, false_and, false_or]
      exact ih hm.2

theorem tagOf_recordTag (m : RepoMap) (r t : String) (i : ImageID) (r' t' : String) :
    tagOf (recordTag m r t i) r' t' = if r' = r ∧ t' = t then some i else tagOf m r' t' := by
  unfold recordTag tagOf
  cases hl : List.lookup r m with
  | none =>
    simp only [lookup_mapSet]
    by_cases hr : r' = r
    · subst hr
      by_cases ht : t' = t <;> simp [hl, ht, lookup_cons_eq]
    · simp [hr]
  | some repo =>
    simp only [lookup_mapSet]
    by_cases hr : r' = r
    · subst hr
      by_cases ht : t' = t <;> simp [hl, ht, lookup_mapSet]
    · simp [hr]

theorem tagOf_scanRepository (r : String) (n : ImageID) (repo : Repository) (m : RepoMap)
    (r' t' : String) :
    tagOf (scanRepository r n repo m) r' t' =
      if r' = r ∧ (t', n) ∈ repo then some n else tagOf m r' t' := by
  unfold scanRepository
  induction repo generalizing m with
  | nil => simp
  | cons p rest ih =>
    obtain ⟨t0, i0⟩ := p
    rw [List.foldl_cons, ih]
    by_cases hr : r' = r
    · subst hr
      by_cases hrest : (t', n) ∈ rest
      · simp [hrest]
      · by_cases hi : i0 = n
        · subst hi
          by_cases ht : t' = t0
          · subst ht
            simp [hrest, tagOf_recordTag]
          · simp [hrest, tagOf_recordTag, ht]
        · have hne : ¬ n = i0 := fun e => hi e.symm
          simp [hrest, hi, hne]
    · by_cases hi : i0 = n
      · simp [hr, hi, tagOf_recordTag]
      · simp [hr, hi]

theorem tagOf_scanRepositories (repos : RepoMap) (n : ImageID) (m : RepoMap)
    (r' t' : String) (i : ImageID) :
    tagOf (scanRepositories repos n m) r' t' = some i ↔
      (tagged repos r' t' n ∧ i = n) ∨ (¬ tagged repos r' t' n ∧ tagOf m r' t' = some i) := by
  unfold scanRepositories
  induction repos generalizing m with
  | nil => simp [tagged]
  | cons p rest ih =>
    obtain ⟨r0, repo0⟩ := p
    rw [List.foldl_cons, ih, tagOf_scanRepository]
    have hcons : tagged ((r0, repo0) :: rest) r' t' n ↔
        (r' = r0 ∧ (t', n) ∈ repo0) ∨ tagged rest r' t' n := by
      unfold tagged
      constructor
      · rintro ⟨repo, hmem, ht⟩
        rcases List.mem_cons.1 hmem with e | hmem
        · simp only [Prod.mk.injEq] at e
          exact Or.inl ⟨e.1, e.2 ▸ ht⟩
        · exact Or.inr ⟨repo, hmem, ht⟩
      · rintro (⟨e, ht⟩ | ⟨repo, hmem, ht⟩)
        · exact ⟨repo0, by simp [e], ht⟩
        · exact ⟨repo, List.mem_cons_of_mem _ hmem, ht⟩
    rw [hcons]
    by_cases h1 : tagged rest r' t' n
    · simp [h1]
    · by_cases h0 : r' = r0 ∧ (t', n) ∈ repo0
      · obtain ⟨e, ht0⟩ := h0
        subst e
        simp [h1, ht0, eq_comm]
      · simp [h1, h0]

theorem tagged_iff_tagOf (repos : RepoMap) (hwf : WFCatalog repos) (r t : String) (n : ImageID) :
    tagged repos r t n ↔ tagOf repos r t = some n := by
  unfold tagged tagOf
  constructor
  · rintro ⟨repo, hmem, ht⟩
    have h1 := (lookup_eq_some_iff_mem repos r repo hwf.1).2 hmem
    have h2 := (lookup_eq_some_iff_mem repo t n (hwf.2 _ hmem)).2 ht
    simp [h1, h2]
  · intro h
    cases hl : List.lookup r repos with
    | none => simp [hl] at h
    | some repo =>
      simp only [hl, Option.some_bind] at h
      have hmem := (lookup_eq_some_iff_mem repos r repo hwf.1).1 hl
      exact ⟨repo, hmem, (lookup_eq_some_iff_mem repo t n (hwf.2 _ hmem)).1 h⟩

theorem mapSet_ne_nil {V : Type} (m : List (String × V)) (k : String) (v : V) :
    mapSet m k v ≠ [] := by
  cases m with
  | nil => simp [mapSet]
  | cons p rest =>
    obtain ⟨k0, v0⟩ := p
    by_cases h : k0 = k <;> simp [mapSet, h]

theorem mem_mapSet {V : Type} (m : List (String × V)) (k : String) (v : V) (p : String × V)
    (hp : p ∈ mapSet m k v) : p ∈ m ∨ p = (k, v) := by
  induction m with
  | nil => simpa [mapSet] using hp
  | cons q rest ih =>
    obtain ⟨k0, v0⟩ := q
    by_cases h : k0 = k
    · simp only [mapSet, h, if_true, List.mem_cons] at hp
      rcases hp with e | hmem
      · exact Or.inr e
      · exact Or.inl (List.mem_cons_of_mem _ hmem)
    · simp only [mapSet, h, if_false, List.mem_cons] at hp
      rcases hp with e | hmem
      · exact Or.inl (by simp [e])
      · rcases ih hmem with h1 | h1
        · exact Or.inl (List.mem_cons_of_mem _ h1)
        · exact Or.inr h1

theorem noEmptyRepo_recordTag (m : RepoMap) (r t : String) (i : ImageID) (hm : NoEmptyRepo m) :
    NoEmptyRepo (recordTag m r t i) := by
  intro p hp
  unfold recordTag at hp
  cases hl : List.lookup r m with
  | none =>
    rw [hl] at hp
    rcases mem_mapSet _ _ _ _ hp with h | h
    · exact hm p h
    · simp [h]
  | some repo =>
    rw [hl] at hp
    rcases mem_mapSet _ _ _ _ hp with h | h
    · exact hm p h
    · rw [h]
      exact mapSet_ne_nil _ _ _

theorem noEmptyRepo_scanRepository (r : String) (n : ImageID) (repo : Repository) (m : RepoMap)
    (hm : NoEmptyRepo m) : NoEmptyRepo (scanRepository r n repo m) := by
  unfold scanRepository
  induction repo generalizing m with
  | nil => simpa using hm
  | cons p rest ih =>
    rw [List.foldl_cons]
    apply ih
    by_cases h : p.2 = n
    · simp only [h, if_true]
      exact noEmptyRepo_recordTag _ _ _ _ hm
    · simpa [h] using hm

theorem noEmptyRepo_scanRepositories (repos : RepoMap) (n : ImageID) (m : RepoMap)
    (hm : NoEmptyRepo m) : NoEmptyRepo (scanRepositories repos n m) := by
  unfold scanRepositories
  induction repos generalizing m with
  | nil => simpa using hm
  | cons p rest ih =>
    rw [List.foldl_cons]
    exact ih _ (noEmptyRepo_scanRepository _ _ _ _ hm)

theorem ne_nil_iff_tagOf (m : RepoMap) (hm : NoEmptyRepo m) :
    m ≠ [] ↔ ∃ r t i, tagOf m r t = some i := by
  constructor
  · intro hne
    cases m with
    | nil => exact absurd rfl hne
    | cons p rest =>
      obtain ⟨r, repo⟩ := p
      have hrepo : repo ≠ [] := hm (r, repo) (List.mem_cons_self _ _)
      cases repo with
      | nil => exact absurd rfl hrepo
      | cons q rest' =>
        obtain ⟨t, i⟩ := q
        exact ⟨r, t, i, by simp [tagOf, lookup_cons_eq]⟩
  · rintro ⟨r, t, i, h⟩ e
    subst e
    simp [tagOf] at h

/-! ## One pass through the loop body -/

theorem runOps_spec (w : World) (ops : List Op) (st : State) (r : Option Err) (st' : State)
    (h : runOps w ops st = (r, st')) :
    (r = none ∧ st' = { st with trace := st.trace ++ okEvents ops } ∧
        ∀ op ∈ ops, w.fail op = none) ∨
    (∃ pre op post e, r = some e ∧ ops = pre ++ op :: post ∧ w.fail op = some e ∧
        (∀ o ∈ pre, w.fail o = none) ∧
        st' = { st with trace := st.trace ++ okEvents pre ++ [⟨op, .err e⟩] }) := by
  induction ops generalizing st with
  | nil =>
    simp only [runOps, Prod.mk.injEq] at h
    left
    refine ⟨h.1.symm, ?_, by simp⟩
    rw [← h.2]
    simp [okEvents]
  | cons op ops ih =>
    unfold runOps at h
    cases hf : w.fail op with
    | some e =>
      rw [hf] at h
      simp only [Prod.mk.injEq] at h
      right
      refine ⟨[], op, ops, e, h.1.symm, rfl, hf, by simp, ?_⟩
      rw [← h.2]
      simp [State.log, okEvents]
    | none =>
      rw [hf] at h
      rcases ih _ h with ⟨hr, hst, hall⟩ | ⟨pre, op', post, e, hr, hops, hf', hpre, hst⟩
      · left
        refine ⟨hr, ?_, ?_⟩
        · rw [hst]
          simp [State.log, okEvents]
        · intro o ho
          rcases List.mem_cons.1 ho with e | ho
          · rw [e]; exact hf
          · exact hall o ho
      · right
        refine ⟨op :: pre, op', post, e, hr, by simp [hops], hf', ?_, ?_⟩
        · intro o ho
          rcases List.mem_cons.1 ho with e | ho
          · rw [e]; exact hf
          · exact hpre o ho
        · rw [hst]
          simp [State.log, okEvents]

/-! ## Paths -/

theorem mem_imagePaths (t : Path) (dirs : List ImageID) (q : Path) :
    q ∈ imagePaths t dirs ↔
      ∃ m ∈ dirs, q = pathJoin t m ∨ q = pathJoin t m ++ ["VERSION"] ∨
        q = pathJoin t m ++ ["json"] ∨ q = pathJoin t m ++ ["layer.tar"] := by
  induction dirs with
  | nil => simp [imagePaths]
  | cons m ms ih =>
    simp only [imagePaths, List.mem_cons, ih]
    constructor
    · rintro (h | h | h | h | ⟨m', hm', h⟩)
      · exact ⟨m, Or.inl rfl, Or.inl h⟩
      · exact ⟨m, Or.inl rfl, Or.inr (Or.inl h)⟩
      · exact ⟨m, Or.inl rfl, Or.inr (Or.inr (Or.inl h))⟩
      · exact ⟨m, Or.inl rfl, Or.inr (Or.inr (Or.inr h))⟩
      · exact ⟨m', Or.inr hm', h⟩
    · rintro ⟨m', hm' | hm', h⟩
      · subst hm'
        rcases h with h | h | h | h
        · exact Or.inl h
        · exact Or.inr (Or.inl h)
        · exact Or.inr (Or.inr (Or.inl h))
        · exact Or.inr (Or.inr (Or.inr (Or.inl h)))
      · exact Or.inr (Or.inr (Or.inr (Or.inr ⟨m', hm', h⟩)))

theorem occupied_of_mem (w : World) (dirs : List ImageID) (n : ImageID) (h : n ∈ dirs) :
    occupied w dirs n = true := by
  have : pathJoin w.tempdir n ∈ imagePaths w.tempdir dirs :=
    (mem_imagePaths _ _ _).2 ⟨n, h, Or.inl rfl⟩
  simp [occupied, this]

theorem splitSlash_of_not_mem (cs : List Char) (h : '/' ∉ cs) : splitSlash cs = [cs] := by
  induction cs with
  | nil => rfl
  | cons c cs ih =>
    simp only [List.mem_cons, not_or] at h
    have hc : ¬ c = '/' := fun e => h.1 e.symm
    simp [splitSlash, hc, ih h.2]

theorem plain_iff (n : String) :
    plain n = true ↔ n ≠ "" ∧ n ≠ "." ∧ n ≠ ".." ∧ '/' ∉ n.toList := by
  simp [plain]

theorem pathJoin_plain (base : Path) (n : String) (h : plain n = true) :
    pathJoin base n = base ++ [n] := by
  obtain ⟨h1, h2, h3, h4⟩ := (plain_iff n).1 h
  have hc : components n = [n] := by
    unfold components
    rw [splitSlash_of_not_mem _ h4]
    rfl
  simp [pathJoin, hc, pathStep, h1, h2, h3]

theorem below_append (t x : Path) : below t (t ++ x) = true := by
  induction t with
  | nil => rfl
  | cons a as ih => simp [below, ih]

theorem below_snoc_false (t : Path) (n : String) : below (t ++ [n]) t = false := by
  induction t with
  | nil => rfl
  | cons a as ih => simp [below, ih]

/-- For well formed names the directory test is the membership test: the directory of
a single path element is there exactly when that name has been walked. -/
theorem occupied_plain (w : World) (dirs : List ImageID) (n : ImageID)
    (hn : plain n = true) (hD : AllPlain dirs) (h : occupied w dirs n = true) : n ∈ dirs := by
  unfold occupied at h
  rw [pathJoin_plain _ n hn] at h
  simp [below_snoc_false, below_append] at h
  obtain ⟨m, hm, hq⟩ := (mem_imagePaths _ _ _).1 h
  rw [pathJoin_plain _ m (hD m hm)] at hq
  rcases hq with hq | hq | hq | hq
  · have := List.append_cancel_left hq
    simp only [List.cons.injEq, and_true] at this
    rw [this]; exact hm
  all_goals
    rw [List.append_assoc] at hq
    have := List.append_cancel_left hq
    simp at this

/-- The three ways one pass through the loop body can end: the directory was already
there, some operation failed, or the image was written and the loop goes on with the
parent. -/
theorem exportStep_spec (w : World) (n : ImageID) (st : State) (nx : Next) (st' : State)
    (h : exportStep w n st = (nx, st')) :
    (occupied w st.dirs n = true ∧ nx = .stop none ∧ st' = st.log (.mkdir n) .existed) ∨
    (n ∉ st.dirs ∧ ∃ pre op post e, nx = .stop (some e) ∧ stepOps n = pre ++ op :: post ∧
        w.fail op = some e ∧ (∀ o ∈ pre, w.fail o = none) ∧
        st'.trace = st.trace ++ okEvents pre ++ [⟨op, .err e⟩] ∧
        st'.sink = st.sink ∧ st'.repositories = st.repositories ∧
        ((pre = [] ∧ st'.dirs = st.dirs) ∨ (pre ≠ [] ∧ st'.dirs = st.dirs ++ [n]))) ∨
    (n ∉ st.dirs ∧ nx = .next (w.parent n) ∧
        st' = { dirs := st.dirs ++ [n], repositories := st.repositories,
                repoMap := scanRepositories w.Repositories n st.repoMap,
                trace := st.trace ++ okEvents (stepOps n), sink := st.sink } ∧
        ∀ op ∈ stepOps n, w.fail op = none) := by
  unfold exportStep at h
  by_cases hocc : occupied w st.dirs n = true
  · rw [if_pos hocc] at h
    simp only [Prod.mk.injEq] at h
    exact Or.inl ⟨hocc, h.1.symm, h.2.symm⟩
  · rw [if_neg hocc] at h
    have hmem : n ∉ st.dirs := fun hm => hocc (occupied_of_mem w st.dirs n hm)
    right
    cases hmk : w.fail (.mkdir n) with
    | some e =>
      rw [hmk] at h
      simp only [Prod.mk.injEq] at h
      left
      refine ⟨hmem, [], .mkdir n, serialOps n ++ [.imageGet n], e, h.1.symm,
        by simp [stepOps], hmk, by simp, ?_, ?_, ?_, Or.inl ⟨rfl, ?_⟩⟩ <;>
        rw [← h.2] <;> simp [State.log, okEvents]
    | none =>
      rw [hmk] at h
      simp only at h
      cases hrun : runOps w (serialOps n)
          { st.log (.mkdir n) .ok with dirs := st.dirs ++ [n] } with
      | mk r st2 =>
        rw [hrun] at h
        rcases runOps_spec _ _ _ _ _ hrun with ⟨hr, hst2, hall⟩ |
            ⟨pre, op, post, e, hr, hops, hf, hpre, hst2⟩
        · subst hr
          simp only at h
          cases hget : w.fail (.imageGet n) with
          | some e =>
            rw [hget] at h
            simp only [Prod.mk.injEq] at h
            left
            refine ⟨hmem, .mkdir n :: serialOps n, .imageGet n, [], e, h.1.symm,
              by simp [stepOps], hget, ?_, ?_, ?_, ?_, Or.inr ⟨by simp, ?_⟩⟩
            · intro o ho
              rcases List.mem_cons.1 ho with e | ho
              · rw [e]; exact hmk
              · exact hall o ho
            all_goals rw [← h.2, hst2]; simp [State.log, okEvents]
          | none =>
            rw [hget] at h
            simp only [Prod.mk.injEq] at h
            right
            refine ⟨hmem, h.1.symm, ?_, ?_⟩
            · rw [← h.2, hst2]
              simp [State.log, okEvents, stepOps]
            · intro o ho
              simp only [stepOps, List.mem_cons, List.mem_append, List.mem_singleton,
                List.not_mem_nil, or_false] at ho
              rcases ho with (e | ho) | e
              · rw [e]; exact hmk
              · exact hall o ho
              · rw [e]; exact hget
        · subst hr
          simp only [Prod.mk.injEq] at h
          left
          refine ⟨hmem, .mkdir n :: pre, op, post ++ [.imageGet n], e, h.1.symm,
            by simp [stepOps, hops], hf, ?_, ?_, ?_, ?_, Or.inr ⟨by simp, ?_⟩⟩
          · intro o ho
            rcases List.mem_cons.1 ho with e | ho
            · rw [e]; exact hmk
            · exact hpre o ho
          all_goals rw [← h.2, hst2]
          all_goals try simp [State.log, okEvents]

/-! ## Invariant rules -/

/-- A property of result and state that every pass through the loop body preserves is
preserved by the loop. -/
theorem exportLoop_rule (w : World) (Q : Option Err → State → Prop)
    (hstep : ∀ n st nx st', n ≠ "" → Q none st → exportStep w n st = (nx, st') →
      (∀ r, nx = .stop r → Q r st') ∧ (∀ p, nx = .next p → Q none st')) :
    ∀ fuel n st r st', Q none st → exportLoop w fuel n st = some (r, st') → Q r st' := by
  intro fuel
  induction fuel with
  | zero =>
    intro n st r st' hQ h
    unfold exportLoop at h
    by_cases hn : n = ""
    · simp only [hn, if_true, Option.some.injEq, Prod.mk.injEq] at h
      rw [← h.1, ← h.2]; exact hQ
    · simp [hn] at h
  | succ fuel ih =>
    intro n st r st' hQ h
    unfold exportLoop at h
    by_cases hn : n = ""
    · simp only [hn, if_true, Option.some.injEq, Prod.mk.injEq] at h
      rw [← h.1, ← h.2]; exact hQ
    · rw [if_neg hn] at h
      cases hs : exportStep w n st with
      | mk nx st1 =>
        rw [hs] at h
        have hspec := hstep n st nx st1 hn hQ hs
        cases nx with
        | stop r1 =>
          simp only [Option.some.injEq, Prod.mk.injEq] at h
          rw [← h.1, ← h.2]
          exact hspec.1 r1 rfl
        | next p =>
          simp only at h
          exact ih p st1 r st' (hspec.2 p rfl) h

/-- The rule for the loop over the references: a property preserved by every pass
through the body of `exportImage`, by the entry into a walk and by the image lookup is
preserved by the whole loop. -/
theorem exportRefs_rule (w : World) (fuel : Nat) (Q : Option Err → State → Prop)
    (hstep : ∀ n st nx st', n ≠ "" → Q none st → exportStep w n st = (nx, st') →
      (∀ r, nx = .stop r → Q r st') ∧ (∀ p, nx = .next p → Q none st'))
    (hwalk : ∀ n st, Q none st → Q none (st.log (.walk n) .ok))
    (hok : ∀ name st, Q none st → w.fail (.lookup name) = none →
      Q none (st.log (.lookup name) .ok))
    (herr : ∀ name st e, Q none st → w.fail (.lookup name) = some e →
      Q (some e) (st.log (.lookup name) (.err e))) :
    ∀ args st r st', Q none st → exportRefs w fuel args st = some (r, st') → Q r st' := by
  have himg : ∀ n st r st', Q none st → exportImage w fuel n st = some (r, st') → Q r st' := by
    intro n st r st' hQ h
    exact exportLoop_rule w Q hstep fuel n _ r st' (hwalk n st hQ) h
  have hall : ∀ ids st r st', Q none st → exportAll w fuel ids st = some (r, st') →
      Q r st' := by
    intro ids
    induction ids with
    | nil =>
      intro st r st' hQ h
      simp only [exportAll, Option.some.injEq, Prod.mk.injEq] at h
      rw [← h.1, ← h.2]; exact hQ
    | cons id ids ih =>
      intro st r st' hQ h
      unfold exportAll at h
      cases hi : exportImage w fuel id st with
      | none => simp [hi] at h
      | some p =>
        obtain ⟨r1, st1⟩ := p
        have h1 := himg id st r1 st1 hQ hi
        rw [hi] at h
        cases r1 with
        | some e =>
          simp only [Option.some.injEq, Prod.mk.injEq] at h
          rw [← h.1, ← h.2]; exact h1
        | none => exact ih st1 r st' h1 h
  have href : ∀ arg st r st', Q none st → exportRef w fuel arg st = some (r, st') →
      Q r st' := by
    intro arg st r st' hQ h
    unfold exportRef at h
    simp only at h
    cases hl : List.lookup (w.normalize arg) w.Repositories with
    | some repo =>
      rw [hl] at h
      exact hall _ st r st' hQ h
    | none =>
      rw [hl] at h
      cases hf : w.fail (.lookup (w.normalize arg)) with
      | some e =>
        rw [hf] at h
        simp only [Option.some.injEq, Prod.mk.injEq] at h
        rw [← h.1, ← h.2]
        exact herr _ st e hQ hf
      | none =>
        rw [hf] at h
        have hQ1 := hok _ st hQ hf
        cases hi : w.image (w.normalize arg) with
        | some id =>
          rw [hi] at h
          exact himg _ _ r st' hQ1 h
        | none =>
          rw [hi] at h
          exact himg _ _ r st' hQ1 h
  intro args
  induction args with
  | nil =>
    intro st r st' hQ h
    simp only [exportRefs, Option.some.injEq, Prod.mk.injEq] at h
    rw [← h.1, ← h.2]; exact hQ
  | cons arg args ih =>
    intro st r st' hQ h
    unfold exportRefs at h
    cases hi : exportRef w fuel arg st with
    | none => simp [hi] at h
    | some p =>
      obtain ⟨r1, st1⟩ := p
      have h1 := href arg st r1 st1 hQ hi
      rw [hi] at h
      cases r1 with
      | some e =>
        simp only [Option.some.injEq, Prod.mk.injEq] at h
        rw [← h.1, ← h.2]; exact h1
      | none => exact ih st1 r st' h1 h

/-- What a returning call went through: either it ended before the loop over the
references (usage error or no staging directory), or the loop ran to some result; on an
error of the loop that is the result of the call, otherwise the result is that of the
closing steps. -/
theorem CmdImageExport_spec (w : World) (fuel : Nat) (args : List String) (o : Outcome)
    (h : CmdImageExport w fuel args = some o) :
    (∀ p ∈ o.disk, below w.tempdir p = false) ∧
    ((args = [] ∧ o.status = some (usage w) ∧ o.final = State.init) ∨
     (args ≠ [] ∧ ∃ e, w.fail .tempDir = some e ∧ o.status = some e ∧
        o.final = State.init.log .tempDir (.err e)) ∨
     (args ≠ [] ∧ w.fail .tempDir = none ∧ ∃ r1 st1,
        exportRefs w fuel args (State.init.log .tempDir .ok) = some (r1, st1) ∧
        ((∃ e, r1 = some e ∧ o.status = some e ∧ o.final = st1) ∨
         (r1 = none ∧ (o.status, o.final) = finish w st1)))) := by
  have hrem : ∀ ps, ∀ p ∈ removeAll w.tempdir ps, below w.tempdir p = false := by
    intro ps p hp
    simpa [removeAll] using (List.mem_filter.1 hp).2
  unfold CmdImageExport at h
  by_cases hlen : args.length < 1
  · rw [if_pos hlen] at h
    simp only [Option.some.injEq] at h
    have hnil : args = [] := by
      cases args with
      | nil => rfl
      | cons a as => simp at hlen
    subst h
    exact ⟨fun p hp => by simp at hp, Or.inl ⟨hnil, rfl, rfl⟩⟩
  · rw [if_neg hlen] at h
    have hne : args ≠ [] := by
      intro e; subst e; simp at hlen
    cases hf : w.fail .tempDir with
    | some e =>
      rw [hf] at h
      simp only [Option.some.injEq] at h
      subst h
      exact ⟨fun p hp => by simp at hp, Or.inr (Or.inl ⟨hne, e, rfl, rfl, rfl⟩)⟩
    | none =>
      rw [hf] at h
      simp only at h
      unfold exportBody at h
      cases hr : exportRefs w fuel args (State.init.log .tempDir .ok) with
      | none => simp [hr] at h
      | some p =>
        obtain ⟨r1, st1⟩ := p
        rw [hr] at h
        cases r1 with
        | some e =>
          simp only [Option.some.injEq] at h
          subst h
          exact ⟨hrem _, Or.inr (Or.inr ⟨hne, rfl, some e, st1, rfl, Or.inl ⟨e, rfl, rfl, rfl⟩⟩)⟩
        | none =>
          simp only [Option.some.injEq] at h
          subst h
          exact ⟨hrem _, Or.inr (Or.inr ⟨hne, rfl, none, st1, rfl, Or.inr ⟨rfl, rfl⟩⟩)⟩

/-! ## The order of first encounter -/

theorem firstSeen_append (acc l1 l2 : List ImageID) :
    firstSeen acc (l1 ++ l2) = firstSeen (firstSeen acc l1) l2 := by
  induction l1 generalizing acc with
  | nil => rfl
  | cons x xs ih =>
    show firstSeen (if x ∈ acc then acc else acc ++ [x]) (xs ++ l2) = _
    rw [ih]
    rfl

theorem firstSeen_of_subset (acc l : List ImageID) (h : ∀ x ∈ l, x ∈ acc) :
    firstSeen acc l = acc := by
  induction l with
  | nil => rfl
  | cons x xs ih =>
    have hx : x ∈ acc := h x (List.mem_cons_self _ _)
    simp only [firstSeen, hx, if_true]
    exact ih (fun y hy => h y (List.mem_cons_of_mem _ hy))

theorem firstSeen_extends (acc l : List ImageID) : ∃ t, acc ++ t = firstSeen acc l := by
  induction l generalizing acc with
  | nil => exact ⟨[], by simp [firstSeen]⟩
  | cons x xs ih =>
    simp only [firstSeen]
    by_cases hx : x ∈ acc
    · simpa [hx] using ih acc
    · obtain ⟨t, ht⟩ := ih (acc ++ [x])
      exact ⟨x :: t, by simp [hx, ← ht]⟩

theorem mem_firstSeen (acc l : List ImageID) (x : ImageID) :
    x ∈ firstSeen acc l ↔ x ∈ acc ∨ x ∈ l := by
  induction l generalizing acc with
  | nil => simp [firstSeen]
  | cons y ys ih =>
    simp only [firstSeen, ih, List.mem_cons]
    by_cases hy : y ∈ acc
    · simp only [hy, if_true]
      constructor
      · rintro (h | h)
        · exact Or.inl h
        · exact Or.inr (Or.inr h)
      · rintro (h | h | h)
        · exact Or.inl h
        · exact Or.inl (h ▸ hy)
        · exact Or.inr h
    · simp only [hy, if_false, List.mem_append, List.mem_singleton]
      tauto

theorem firstSeen_nodup (acc l : List ImageID) (h : acc.Nodup) : (firstSeen acc l).Nodup := by
  induction l generalizing acc with
  | nil => simpa [firstSeen] using h
  | cons y ys ih =>
    simp only [firstSeen]
    by_cases hy : y ∈ acc
    · simpa [hy] using ih acc h
    · simp only [hy, if_false]
      apply ih
      rw [List.nodup_append]
      refine ⟨h, List.nodup_singleton _, ?_⟩
      intro a ha hb
      rw [List.mem_singleton] at hb
      exact hy (hb ▸ ha)

theorem mem_chain_ne (w : World) (k : Nat) (n m : ImageID) (h : m ∈ chain w k n) :
    InChain w n m := by
  induction k generalizing n with
  | zero => simp [chain] at h
  | succ k ih =>
    unfold chain at h
    by_cases hn : n = ""
    · simp [hn] at h
    · rw [if_neg hn, List.mem_cons] at h
      rcases h with e | h
      · rw [e]; exact InChain.start n hn
      · exact InChain.step n m hn (ih _ h)

theorem inChain_ne (w : World) (n m : ImageID) (h : InChain w n m) : n ≠ "" := by
  cases h with
  | start _ hn => exact hn
  | step _ _ hn _ => exact hn

theorem inChain_mem_of_closed (w : World) (D : List ImageID) (hD : Closed w D)
    (n m : ImageID) (h : InChain w n m) (hn : n ∈ D) : m ∈ D := by
  induction h with
  | start _ _ => exact hn
  | step a b _ hrest ih =>
    rcases hD a hn with hp | hp
    · exact absurd hp (inChain_ne w _ _ hrest)
    · exact ih hp

theorem chain_subset_of_closed (w : World) (D : List ImageID) (hD : Closed w D)
    (k : Nat) (n : ImageID) (hn : n ∈ D) : ∀ m ∈ chain w k n, m ∈ D :=
  fun m hm => inChain_mem_of_closed w D hD n m (mem_chain_ne w k n m hm) hn

/-- The loop, started at a well formed (or empty) name, writes the images of the chain
of that name that are not yet staged, the start image first and each parent after its
child; when it ends without error the staged set is closed under `parent` again. -/
theorem exportLoop_order (w : World) :
    ∀ fuel n st r st', exportLoop w fuel n st = some (r, st') →
      (n = "" ∨ plain n = true) → AllPlain st.dirs →
      (∀ m ∈ st.dirs, w.parent m = "" ∨ w.parent m ∈ st.dirs ∨ w.parent m = n) →
      (∃ pre t, pre ++ t = chain w fuel n ∧ st'.dirs = firstSeen st.dirs pre) ∧
      (r = none → st'.dirs = firstSeen st.dirs (chain w fuel n) ∧ Closed w st'.dirs ∧
        (n = "" ∨ n ∈ st'.dirs) ∧ AllPlain st'.dirs) := by
  intro fuel
  induction fuel with
  | zero =>
    intro n st r st' h hn hall hc
    unfold exportLoop at h
    by_cases hn0 : n = ""
    · simp only [hn0, if_true, Option.some.injEq, Prod.mk.injEq] at h
      obtain ⟨hr, hst⟩ := h
      subst hst
      refine ⟨⟨[], [], by simp [chain], rfl⟩,
        fun _ => ⟨by simp [chain, firstSeen], ?_, Or.inl hn0, hall⟩⟩
      intro m hm
      rcases hc m hm with h1 | h1 | h1
      · exact Or.inl h1
      · exact Or.inr h1
      · exact Or.inl (h1.trans hn0)
    · simp [hn0] at h
  | succ fuel ih =>
    intro n st r st' h hn hall hc
    unfold exportLoop at h
    by_cases hn0 : n = ""
    · simp only [hn0, if_true, Option.some.injEq, Prod.mk.injEq] at h
      obtain ⟨hr, hst⟩ := h
      subst hst
      refine ⟨⟨[], [], by simp [chain, hn0], rfl⟩,
        fun _ => ⟨by simp [chain, firstSeen, hn0], ?_, Or.inl hn0, hall⟩⟩
      intro m hm
      rcases hc m hm with h1 | h1 | h1
      · exact Or.inl h1
      · exact Or.inr h1
      · exact Or.inl (h1.trans hn0)
    · rw [if_neg hn0] at h
      have hplain : plain n = true := hn.resolve_left hn0
      have hchain : chain w (fuel + 1) n = n :: chain w fuel (w.parent n) := by
        simp [chain, hn0]
      cases hs : exportStep w n st with
      | mk nx st1 =>
        rw [hs] at h
        rcases exportStep_spec w n st nx st1 hs with ⟨hocc, hnx, hst1⟩ |
          ⟨hmem, pre, op, post, e, hnx, -, -, -, -, -, -, hd⟩ | ⟨hmem, hnx, hst1, -⟩
        · subst hnx
          simp only [Option.some.injEq, Prod.mk.injEq] at h
          obtain ⟨hr, hst⟩ := h
          subst hst
          have hmem : n ∈ st.dirs := occupied_plain w st.dirs n hplain hall hocc
          have hdirs : st1.dirs = st.dirs := by rw [hst1]; rfl
          have hclosed : Closed w st.dirs := by
            intro m hm
            rcases hc m hm with h1 | h1 | h1
            · exact Or.inl h1
            · exact Or.inr h1
            · exact Or.inr (h1 ▸ hmem)
          have hsub := chain_subset_of_closed w st.dirs hclosed (fuel + 1) n hmem
          refine ⟨⟨[], chain w (fuel + 1) n, rfl, by rw [hdirs]; rfl⟩,
            fun _ => ⟨?_, ?_, ?_, ?_⟩⟩
          · rw [hdirs, firstSeen_of_subset _ _ hsub]
          · rw [hdirs]; exact hclosed
          · rw [hdirs]; exact Or.inr hmem
          · rw [hdirs]; exact hall
        · subst hnx
          simp only [Option.some.injEq, Prod.mk.injEq] at h
          obtain ⟨hr, hst⟩ := h
          subst hst
          refine ⟨?_, fun hnone => by rw [← hr] at hnone; simp at hnone⟩
          rcases hd with ⟨-, hd⟩ | ⟨-, hd⟩
          · exact ⟨[], chain w (fuel + 1) n, rfl, by rw [hd]; rfl⟩
          · exact ⟨[n], chain w fuel (w.parent n), by rw [hchain]; rfl,
              by rw [hd]; simp [firstSeen, hmem]⟩
        · subst hnx
          simp only at h
          have hd1 : st1.dirs = st.dirs ++ [n] := by rw [hst1]
          have hall1 : AllPlain st1.dirs := by
            intro m hm
            rw [hd1, List.mem_append, List.mem_singleton] at hm
            rcases hm with hm | hm
            · exact hall m hm
            · rw [hm]; exact hplain
          have hc1 : ∀ m ∈ st1.dirs, w.parent m = "" ∨ w.parent m ∈ st1.dirs ∨
              w.parent m = w.parent n := by
            intro m hm
            rw [hd1, List.mem_append, List.mem_singleton] at hm
            rcases hm with hm | hm
            · rcases hc m hm with h1 | h1 | h1
              · exact Or.inl h1
              · exact Or.inr (Or.inl (by rw [hd1]; exact List.mem_append_left _ h1))
              · exact Or.inr (Or.inl (by rw [hd1, h1]; simp))
            · exact Or.inr (Or.inr (by rw [hm]))
          obtain ⟨⟨pre, t, hpt, hpre⟩, hok⟩ :=
            ih (w.parent n) st1 r st' h (w.parent_plain n) hall1 hc1
          have hcons : ∀ l, firstSeen st.dirs (n :: l) = firstSeen st1.dirs l := by
            intro l; simp [firstSeen, hmem, hd1]
          refine ⟨⟨n :: pre, t, by rw [hchain, ← hpt]; rfl, by rw [hcons]; exact hpre⟩, ?_⟩
          intro hnone
          obtain ⟨h1, h2, h3, h4⟩ := hok hnone
          refine ⟨by rw [hchain, hcons]; exact h1, h2, Or.inr ?_, h4⟩
          rw [h1, mem_firstSeen]
          exact Or.inl (by rw [hd1]; simp)

/-- A walk from a name that is not a well formed ID stages nothing when it ends without
error: either the name is empty, or its path is there already. -/
theorem exportLoop_alien (w : World) (fuel : Nat) (n : ImageID) (st st' : State)
    (hn : plain n = false) (h : exportLoop w fuel n st = some (none, st')) :
    st'.dirs = st.dirs := by
  by_cases hn0 : n = ""
  · cases fuel <;> simp [exportLoop, hn0] at h <;> rw [← h]
  · cases fuel with
    | zero => simp [exportLoop, hn0] at h
    | succ fuel =>
      unfold exportLoop at h
      rw [if_neg hn0] at h
      cases hs : exportStep w n st with
      | mk nx st1 =>
        rw [hs] at h
        rcases exportStep_spec w n st nx st1 hs with ⟨-, hnx, hst1⟩ |
          ⟨-, pre, op, post, e, hnx, -⟩ | ⟨-, hnx, -, hall⟩
        · subst hnx
          simp only [Option.some.injEq, Prod.mk.injEq, true_and] at h
          rw [← h, hst1]; rfl
        · subst hnx
          simp at h
        · have := w.known_plain n (hall _ (by simp [stepOps, serialOps]))
          rw [hn] at this
          simp at this

theorem encounter_append (w : World) (k : Nat) (a b : List ImageID) :
    encounter w k (a ++ b) = encounter w k a ++ encounter w k b := by
  induction a with
  | nil => rfl
  | cons x xs ih =>
    show chain w k x ++ encounter w k (xs ++ b) = (chain w k x ++ encounter w k xs) ++ _
    rw [ih, List.append_assoc]

theorem mem_encounter (w : World) (k : Nat) (ss : List ImageID) (m : ImageID)
    (h : m ∈ encounter w k ss) : ∃ s ∈ ss, InChain w s m := by
  induction ss with
  | nil => simp [encounter] at h
  | cons s ss ih =>
    simp only [encounter, List.mem_append] at h
    rcases h with h | h
    · exact ⟨s, List.mem_cons_self _ _, mem_chain_ne w k s m h⟩
    · obtain ⟨s', hs', hc⟩ := ih h
      exact ⟨s', List.mem_cons_of_mem _ hs', hc⟩

theorem mem_starts (w : World) (args : List String) (s : ImageID) :
    s ∈ starts w args ↔ ∃ arg ∈ args, s ∈ resolveRef w arg := by
  induction args with
  | nil => simp [starts]
  | cons a as ih => simp [starts, ih]

theorem Walked.nil (w : World) (fuel : Nat) (D : List ImageID) (hD : Closed w D)
    (hP : AllPlain D) : Walked w fuel [] D none D :=
  ⟨fun _ => ⟨rfl, hD, hP, fun id hid => by simp at hid⟩, fun _ => ⟨[], [], rfl, rfl⟩⟩

theorem Walked.fail (w : World) (fuel : Nat) (ids1 ids2 D D' : List ImageID) (e : Err)
    (h : Walked w fuel ids1 D (some e) D') : Walked w fuel (ids1 ++ ids2) D (some e) D' := by
  refine ⟨fun hr => by simp at hr, fun hall => ?_⟩
  obtain ⟨pre, t, hpt, hD'⟩ := h.2 (fun id hid => hall id (List.mem_append_left _ hid))
  refine ⟨pre, t ++ encounter w fuel (ids2.filter plain), ?_, hD'⟩
  rw [List.filter_append, encounter_append, ← List.append_assoc, hpt]

theorem Walked.seq (w : World) (fuel : Nat) (ids1 ids2 D D1 D' : List ImageID)
    (r : Option Err) (h1 : Walked w fuel ids1 D none D1) (h2 : Walked w fuel ids2 D1 r D') :
    Walked w fuel (ids1 ++ ids2) D r D' := by
  obtain ⟨hD1, -, -, hin1⟩ := h1.1 rfl
  refine ⟨fun hr => ?_, fun hall => ?_⟩
  · obtain ⟨h3, h4, h5, hin2⟩ := h2.1 hr
    refine ⟨?_, h4, h5, ?_⟩
    · rw [List.filter_append, encounter_append, firstSeen_append, ← hD1, h3]
    · intro id hid hp
      rcases List.mem_append.1 hid with hid | hid
      · rw [h3, mem_firstSeen]
        exact Or.inl (hin1 id hid hp)
      · exact hin2 id hid hp
  · obtain ⟨pre, t, hpt, hD'⟩ := h2.2 (fun id hid => hall id (List.mem_append_right _ hid))
    refine ⟨encounter w fuel (ids1.filter plain) ++ pre, t, ?_, ?_⟩
    · rw [List.filter_append, encounter_append, List.append_assoc, hpt]
    · rw [firstSeen_append, ← hD1, hD']

theorem exportImage_order (w : World) (fuel : Nat) (n : ImageID) (st : State)
    (r : Option Err) (st' : State) (h : exportImage w fuel n st = some (r, st'))
    (hD : Closed w st.dirs) (hP : AllPlain st.dirs) :
    Walked w fuel [n] st.dirs r st'.dirs := by
  unfold exportImage at h
  by_cases hp : plain n = true
  · have hc : ∀ m ∈ (st.log (.walk n) .ok).dirs, w.parent m = "" ∨
        w.parent m ∈ (st.log (.walk n) .ok).dirs ∨ w.parent m = n := by
      intro m hm
      rcases hD m hm with h1 | h1
      · exact Or.inl h1
      · exact Or.inr (Or.inl h1)
    obtain ⟨h1, h2⟩ := exportLoop_order w fuel n _ r st' h (Or.inr hp) hP hc
    have hf : [n].filter plain = [n] := by simp [hp]
    have hne : n ≠ "" := by
      intro e; rw [e] at hp; revert hp; decide
    refine ⟨fun hr => ?_, fun _ => ?_⟩
    · obtain ⟨h3, h4, h5, h6⟩ := h2 hr
      refine ⟨?_, h4, h6, ?_⟩
      · rw [hf]
        simpa [encounter] using h3
      · intro id hid _
        rw [List.mem_singleton] at hid
        rw [hid]
        exact h5.resolve_left hne
    · rw [hf]
      simpa [encounter] using h1
  · have hp' : plain n = false := by simpa using hp
    have hf : [n].filter plain = [] := by simp [hp']
    refine ⟨fun hr => ?_, fun hall => ?_⟩
    · subst hr
      have hd : st'.dirs = st.dirs := exportLoop_alien w fuel n (st.log (.walk n) .ok) st' hp' h
      rw [hf, hd]
      refine ⟨rfl, hD, hP, ?_⟩
      intro id hid hpid
      rw [List.mem_singleton] at hid
      rw [hid, hp'] at hpid
      simp at hpid
    · have hn0 : n = "" := (hall n (List.mem_singleton.2 rfl)).resolve_right hp
      rw [hf]
      refine ⟨[], [], rfl, ?_⟩
      cases fuel <;> simp [exportLoop, hn0] at h <;> rw [← h.2] <;> rfl

theorem exportAll_order (w : World) (fuel : Nat) :
    ∀ ids st r st', exportAll w fuel ids st = some (r, st') → Closed w st.dirs →
      AllPlain st.dirs → Walked w fuel ids st.dirs r st'.dirs := by
  intro ids
  induction ids with
  | nil =>
    intro st r st' h hD hP
    simp only [exportAll, Option.some.injEq, Prod.mk.injEq] at h
    obtain ⟨hr, hst⟩ := h
    subst hr; subst hst
    exact Walked.nil w fuel _ hD hP
  | cons id ids ih =>
    intro st r st' h hD hP
    unfold exportAll at h
    cases hi : exportImage w fuel id st with
    | none => simp [hi] at h
    | some p =>
      obtain ⟨r1, st1⟩ := p
      have hw1 := exportImage_order w fuel id st r1 st1 hi hD hP
      rw [hi] at h
      cases r1 with
      | some e =>
        simp only [Option.some.injEq, Prod.mk.injEq] at h
        obtain ⟨hr, hst⟩ := h
        subst hr; subst hst
        exact Walked.fail w fuel [id] ids _ _ e hw1
      | none =>
        simp only at h
        obtain ⟨-, hD1, hP1, -⟩ := hw1.1 rfl
        exact Walked.seq w fuel [id] ids _ _ _ r hw1 (ih st1 r st' h hD1 hP1)

theorem exportRef_order (w : World) (fuel : Nat) (arg : String) (st : State)
    (r : Option Err) (st' : State) (h : exportRef w fuel arg st = some (r, st'))
    (hD : Closed w st.dirs) (hP : AllPlain st.dirs) :
    Walked w fuel (resolveRef w arg) st.dirs r st'.dirs := by
  unfold exportRef at h
  simp only at h
  unfold resolveRef
  cases hl : List.lookup (w.normalize arg) w.Repositories with
  | some repo =>
    rw [hl] at h
    exact exportAll_order w fuel _ st r st' h hD hP
  | none =>
    rw [hl] at h
    simp only
    cases hf : w.fail (.lookup (w.normalize arg)) with
    | some e =>
      rw [hf] at h
      simp only [Option.some.injEq, Prod.mk.injEq] at h
      obtain ⟨hr, hst⟩ := h
      subst hr; subst hst
      exact ⟨fun hr => by simp at hr, fun _ => ⟨[], _, rfl, rfl⟩⟩
    | none =>
      rw [hf] at h
      cases hi : w.image (w.normalize arg) with
      | some id =>
        rw [hi] at h
        exact exportImage_order w fuel id (st.log (.lookup (w.normalize arg)) .ok) r st' h hD hP
      | none =>
        rw [hi] at h
        exact exportImage_order w fuel (w.normalize arg)
          (st.log (.lookup (w.normalize arg)) .ok) r st' h hD hP

theorem exportRefs_order (w : World) (fuel : Nat) :
    ∀ args st r st', exportRefs w fuel args st = some (r, st') → Closed w st.dirs →
      AllPlain st.dirs → Walked w fuel (starts w args) st.dirs r st'.dirs := by
  intro args
  induction args with
  | nil =>
    intro st r st' h hD hP
    simp only [exportRefs, Option.some.injEq, Prod.mk.injEq] at h
    obtain ⟨hr, hst⟩ := h
    subst hr; subst hst
    exact Walked.nil w fuel _ hD hP
  | cons arg args ih =>
    intro st r st' h hD hP
    unfold exportRefs at h
    have hstarts : starts w (arg :: args) = resolveRef w arg ++ starts w args := rfl
    rw [hstarts]
    cases hi : exportRef w fuel arg st with
    | none => simp [hi] at h
    | some p =>
      obtain ⟨r1, st1⟩ := p
      have hw1 := exportRef_order w fuel arg st r1 st1 hi hD hP
      rw [hi] at h
      cases r1 with
      | some e =>
        simp only [Option.some.injEq, Prod.mk.injEq] at h
        obtain ⟨hr, hst⟩ := h
        subst hr; subst hst
        exact Walked.fail w fuel _ _ _ _ e hw1
      | none =>
        simp only at h
        obtain ⟨-, hD1, hP1, -⟩ := hw1.1 rfl
        exact Walked.seq w fuel _ _ _ _ _ r hw1 (ih st1 r st' h hD1 hP1)

/-! ## The closing steps -/

theorem writeRepositories_spec (w : World) (st : State) (r : Option Err) (st' : State)
    (h : writeRepositories w st = (r, st')) :
    st'.dirs = st.dirs ∧ st'.repoMap = st.repoMap ∧ st'.sink = st.sink ∧
    (r = none → st'.repositories =
      if st.repoMap.length > 0 then some st.repoMap else st.repositories) ∧
    ((r = none ∧ (st'.trace = st.trace ∨ st'.trace = st.trace ++ [⟨.writeRepositories, .ok⟩])) ∨
     (∃ e, r = some e ∧ w.fail .writeRepositories = some e ∧
        st'.trace = st.trace ++ [⟨.writeRepositories, .err e⟩])) := by
  unfold writeRepositories at h
  by_cases hlen : st.repoMap.length > 0
  · rw [if_pos hlen] at h
    cases hf : w.fail .writeRepositories with
    | some e =>
      rw [hf] at h
      simp only [Prod.mk.injEq] at h
      obtain ⟨hr, hst⟩ := h
      subst hr; subst hst
      exact ⟨rfl, rfl, rfl, fun hr => by simp at hr, Or.inr ⟨e, rfl, rfl, rfl⟩⟩
    | none =>
      rw [hf] at h
      simp only [Prod.mk.injEq] at h
      obtain ⟨hr, hst⟩ := h
      subst hr; subst hst
      exact ⟨rfl, rfl, rfl, fun _ => by simp [hlen], Or.inl ⟨rfl, Or.inr rfl⟩⟩
  · rw [if_neg hlen] at h
    simp only [Prod.mk.injEq] at h
    obtain ⟨hr, hst⟩ := h
    subst hr; subst hst
    exact ⟨rfl, rfl, rfl, fun _ => by simp [hlen], Or.inl ⟨rfl, Or.inl rfl⟩⟩

theorem emit_spec (w : World) (st : State) (r : Option Err) (st' : State)
    (h : emit w st = (r, st')) :
    st'.dirs = st.dirs ∧ st'.repoMap = st.repoMap ∧ st'.repositories = st.repositories ∧
    ((r = none ∧ st'.trace = st.trace ++ [⟨.tar, .ok⟩, ⟨.copy, .ok⟩]) ∨
     (∃ e, r = some e ∧ w.fail .tar = some e ∧ st'.trace = st.trace ++ [⟨.tar, .err e⟩] ∧
        st'.sink = st.sink) ∨
     (∃ e, r = some e ∧ w.fail .copy = some e ∧
        st'.trace = st.trace ++ [⟨.tar, .ok⟩] ++ [⟨.copy, .err e⟩])) := by
  unfold emit at h
  cases hf : w.fail .tar with
  | some e =>
    rw [hf] at h
    simp only [Prod.mk.injEq] at h
    obtain ⟨hr, hst⟩ := h
    subst hr; subst hst
    exact ⟨rfl, rfl, rfl, Or.inr (Or.inl ⟨e, rfl, rfl, rfl, rfl⟩)⟩
  | none =>
    rw [hf] at h
    simp only at h
    cases hc : w.fail .copy with
    | some e =>
      rw [hc] at h
      simp only [Prod.mk.injEq] at h
      obtain ⟨hr, hst⟩ := h
      subst hr; subst hst
      exact ⟨rfl, rfl, rfl, Or.inr (Or.inr ⟨e, rfl, rfl, by simp [State.log]⟩)⟩
    | none =>
      rw [hc] at h
      simp only [Prod.mk.injEq] at h
      obtain ⟨hr, hst⟩ := h
      subst hr; subst hst
      exact ⟨rfl, rfl, rfl, Or.inl ⟨rfl, by simp [State.log]⟩⟩

theorem finish_spec (w : World) (st : State) (r : Option Err) (st' : State)
    (h : finish w st = (r, st')) :
    st'.dirs = st.dirs ∧ st'.repoMap = st.repoMap ∧
    (r = none → st'.repositories =
      if st.repoMap.length > 0 then some st.repoMap else st.repositories) := by
  unfold finish at h
  cases hw : writeRepositories w st with
  | mk r1 st1 =>
    obtain ⟨hd, hm, -, hrep, -⟩ := writeRepositories_spec w st r1 st1 hw
    rw [hw] at h
    cases r1 with
    | some e =>
      simp only [Prod.mk.injEq] at h
      obtain ⟨hr, hst⟩ := h
      subst hr; subst hst
      exact ⟨hd, hm, fun hr => by simp at hr⟩
    | none =>
      simp only at h
      obtain ⟨hd2, hm2, hrep2, -⟩ := emit_spec w st1 r st' h
      exact ⟨hd2.trans hd, hm2.trans hm, fun _ => by rw [hrep2, hrep rfl]⟩

theorem call_dirs (w : World) (fuel : Nat) (args : List String) (o : Outcome)
    (h : CmdImageExport w fuel args = some o) :
    Walked w fuel (starts w args) [] o.status o.final.dirs := by
  obtain ⟨-, hcases⟩ := CmdImageExport_spec w fuel args o h
  rcases hcases with ⟨-, hs, hf⟩ | ⟨-, e, -, hs, hf⟩ | ⟨-, -, r1, st1, hrefs, hres⟩
  · rw [hs, hf]
    exact ⟨fun hr => by simp at hr, fun _ => ⟨[], _, rfl, rfl⟩⟩
  · rw [hs, hf]
    exact ⟨fun hr => by simp at hr, fun _ => ⟨[], _, rfl, rfl⟩⟩
  · have hclosed : Closed w (State.init.log .tempDir .ok).dirs := by
      intro m hm
      simp [State.log, State.init] at hm
    have hplain : AllPlain (State.init.log .tempDir .ok).dirs := by
      intro m hm
      simp [State.log, State.init] at hm
    have hw1 := exportRefs_order w fuel args _ r1 st1 hrefs hclosed hplain
    have hnil : (State.init.log .tempDir .ok).dirs = [] := rfl
    rw [hnil] at hw1
    rcases hres with ⟨e, hr1, hs, hf⟩ | ⟨hr1, hfin⟩
    · rw [hs, hf]
      rw [hr1] at hw1
      exact hw1
    · subst hr1
      obtain ⟨hd, -, -⟩ := finish_spec w st1 o.status o.final hfin.symm
      rw [hd]
      obtain ⟨h3, h4, h5, h6⟩ := hw1.1 rfl
      exact ⟨fun _ => ⟨h3, h4, h5, h6⟩, fun _ => ⟨_, [], List.append_nil _, h3⟩⟩

/-- C1 as stated fails: the reference `.` is found by no lookup and is passed on as a
raw image ID; its directory is the staging directory itself, which is there already, so
the walk returns at once and the call succeeds although the resolved ID `.` has no
staging subdirectory. -/
theorem dot_not_staged :
    (CmdImageExport lineage 3 ["."]).map (fun o => (o.status, o.final.dirs)) =
      some (none, []) ∧
    resolveRef lineage "." = ["."] ∧ InChain lineage "." "." :=
  ⟨rfl, rfl, InChain.start "." (by decide)⟩

/-- C1, amended: after an export call that completes without error, the image IDs with
a staging subdirectory are exactly the resolved image IDs of the requested references
that are well formed IDs (single path elements), together with all their ancestors
reached by repeated `parent` before the empty parent. -/
theorem staged_set_exact (w : World) (fuel : Nat) (args : List String) (o : Outcome)
    (h : CmdImageExport w fuel args = some o) (hok : o.status = none) (m : ImageID) :
    m ∈ o.final.dirs ↔
      ∃ arg ∈ args, ∃ id ∈ resolveRef w arg, plain id = true ∧ InChain w id m := by
  obtain ⟨hd, hclosed, -, hst⟩ := (call_dirs w fuel args o h).1 hok
  constructor
  · intro hm
    rw [hd, mem_firstSeen] at hm
    rcases hm with hm | hm
    · simp at hm
    · obtain ⟨s, hs, hc⟩ := mem_encounter w fuel _ m hm
      obtain ⟨hs1, hs2⟩ := List.mem_filter.1 hs
      obtain ⟨arg, harg, hres⟩ := (mem_starts w args s).1 hs1
      exact ⟨arg, harg, s, hres, hs2, hc⟩
  · rintro ⟨arg, harg, id, hid, hp, hc⟩
    have hs : id ∈ starts w args := (mem_starts w args id).2 ⟨arg, harg, hid⟩
    exact inChain_mem_of_closed w _ hclosed id m hc (hst id hs hp)

/-- Witness for C1 (amended): the request `[busybox]` with both tags at `A` and `A`'s
parent `B` stages exactly `A` and `B`. -/
theorem staged_set_exact_witness :
    (CmdImageExport busybox 3 ["busybox"]).map (fun o => (o.status, o.final.dirs)) =
      some (none, ["A", "B"]) ∧
    ∀ m, m ∈ ["A", "B"] ↔
      ∃ arg ∈ ["busybox"], ∃ id ∈ resolveRef busybox arg,
        plain id = true ∧ InChain busybox id m :=
  ⟨rfl, fun m => staged_set_exact busybox 3 ["busybox"] _ rfl rfl m⟩

/-- C2: after an export call that completes without error, every staged image ID has an
empty parent or a parent that is staged as well. -/
theorem ancestry_closed (w : World) (fuel : Nat) (args : List String) (o : Outcome)
    (h : CmdImageExport w fuel args = some o) (hok : o.status = none) :
    ∀ m ∈ o.final.dirs, w.parent m = "" ∨ w.parent m ∈ o.final.dirs :=
  ((call_dirs w fuel args o h).1 hok).2.1

/-- Witness for C2: the walk from `X` is cut short at `Y`, staged by the first
reference, and the staged set `[Y, X]` is closed. -/
theorem ancestry_closed_witness :
    (CmdImageExport lineage 3 ["Y", "X"]).map (fun o => (o.status, o.final.dirs)) =
      some (none, ["Y", "X"]) ∧
    ∀ m ∈ ["Y", "X"], lineage.parent m = "" ∨ lineage.parent m ∈ ["Y", "X"] :=
  ⟨rfl, ancestry_closed lineage 3 ["Y", "X"] _ rfl rfl⟩

/-- C9 as stated fails: for the request `[X]`, where `Y` is the parent of `X` and the
oldest image of the chain, the descendant `X` is written before `Y`. -/
theorem oldest_first_refuted :
    (CmdImageExport lineage 3 ["X"]).map (fun o => (o.status, o.final.dirs)) =
      some (none, ["X", "Y"]) ∧
    lineage.parent "X" = "Y" ∧ lineage.parent "Y" = "" ∧
    List.indexOf "X" ["X", "Y"] < List.indexOf "Y" ["X", "Y"] :=
  ⟨rfl, rfl, rfl, by decide⟩

/-- C9, amended: after a call that completes without error the staged directories
appear in the order of first encounter, where the references are met in request order,
the tag values of a repository in the order of its iteration, a resolved name that is
not a well formed ID (a single path element) is passed over, and the images of one
chain are met from the start image towards its ancestors (every image before its
parent).  When every resolved name is well formed or empty, also a call that ends with
an error has written an initial part of that list. -/
theorem staging_order (w : World) (fuel : Nat) (args : List String) (o : Outcome)
    (h : CmdImageExport w fuel args = some o) :
    (o.status = none →
      o.final.dirs = firstSeen [] (encounter w fuel ((starts w args).filter plain))) ∧
    ((∀ s ∈ starts w args, s = "" ∨ plain s = true) →
      o.final.dirs <+: firstSeen [] (encounter w fuel ((starts w args).filter plain))) := by
  have hw := call_dirs w fuel args o h
  refine ⟨fun hok => (hw.1 hok).1, fun hall => ?_⟩
  obtain ⟨pre, t, hpt, hD⟩ := hw.2 hall
  rw [← hpt, firstSeen_append, ← hD]
  obtain ⟨t', ht'⟩ := firstSeen_extends o.final.dirs t
  exact ⟨t', ht'⟩

/-- Witness for C9 (amended): the request `[X, ., Y]` writes `X`, then its parent `Y`;
the name `.` is passed over and the last reference finds `Y` staged already. -/
theorem staging_order_witness :
    (CmdImageExport lineage 3 ["X", ".", "Y"]).map (fun o => (o.status, o.final.dirs)) =
      some (none, ["X", "Y"]) ∧
    encounter lineage 3 ((starts lineage ["X", ".", "Y"]).filter plain) = ["X", "Y", "Y"] ∧
    ["X", "Y"] = firstSeen [] (encounter lineage 3 ((starts lineage ["X", ".", "Y"]).filter plain)) :=
  ⟨rfl, by decide, (staging_order lineage 3 ["X", ".", "Y"] _ rfl).1 rfl⟩

/-! ## Counting the writes -/

theorem opCount_append (op : Op) (a b : List Event) :
    opCount op (a ++ b) = opCount op a + opCount op b := by
  simp [opCount, List.count_append]

theorem opCount_okEvents (op : Op) (ops : List Op) :
    opCount op (okEvents ops) = List.count op ops := by
  simp [opCount, okEvents, Function.comp_def]

theorem opCount_single (op op' : Op) (r : Res) :
    opCount op [⟨op', r⟩] = if op' = op then 1 else 0 := by
  by_cases h : op' = op
  · simp [opCount, h]
  · rw [if_neg h]
    show List.count op [op'] = 0
    rw [List.count_eq_zero, List.mem_singleton]
    exact fun e => h e.symm

theorem opCount_log (op op' : Op) (r : Res) (st : State) (h : op' ≠ op) :
    opCount op (st.log op' r).trace = opCount op st.trace := by
  simp [State.log, opCount_append, opCount_single, h]

theorem count_stepOps (m n : ImageID) (op : Op) (hop : op ∈ serialOps m) :
    List.count op (stepOps n) = if m = n then 1 else 0 := by
  simp only [serialOps, List.mem_cons, List.mem_singleton, List.not_mem_nil, or_false] at hop
  by_cases hmn : m = n
  · subst hmn
    rcases hop with e | e | e | e | e <;> subst e <;> simp [stepOps, serialOps, List.count_cons]
  · have hnm : ¬ n = m := fun e => hmn e.symm
    rcases hop with e | e | e | e | e <;> subst e <;>
      simp [stepOps, serialOps, List.count_cons, hmn, hnm]

theorem serialOps_ne (m : ImageID) (op : Op) (hop : op ∈ serialOps m) :
    (∀ n, op ≠ .mkdir n) ∧ (∀ n, op ≠ .walk n) ∧ (∀ n, op ≠ .lookup n) ∧ op ≠ .tempDir ∧
    op ≠ .writeRepositories ∧ op ≠ .tar ∧ op ≠ .copy := by
  simp only [serialOps, List.mem_cons, List.mem_singleton, List.not_mem_nil, or_false] at hop
  rcases hop with e | e | e | e | e <;> subst e <;> simp

theorem writtenOnce_of_trace (st st' : State) (new : List Event) (h : WrittenOnce st)
    (hd : st'.dirs = st.dirs) (ht : st'.trace = st.trace ++ new)
    (hnew : ∀ n, ∀ op ∈ serialOps n, opCount op new = 0) : WrittenOnce st' := by
  refine ⟨by rw [hd]; exact h.1, ?_⟩
  intro n op hop
  rw [ht, opCount_append, hnew n op hop, hd]
  exact h.2 n op hop

theorem writtenOnce_log (st : State) (op' : Op) (r : Res) (h : WrittenOnce st)
    (hop' : ∀ n, op' ∉ serialOps n) : WrittenOnce (st.log op' r) := by
  refine writtenOnce_of_trace st _ [⟨op', r⟩] h rfl rfl ?_
  intro n op hop
  rw [opCount_single]
  have : op' ≠ op := fun e => hop' n (e ▸ hop)
  simp [this]

theorem writtenOnce_step (w : World) (n : ImageID) (st : State) (nx : Next) (st' : State)
    (h : WrittenOnce st) (hs : exportStep w n st = (nx, st')) : WrittenOnce st' := by
  have hgrow : ∀ (newOps t : List Op) (st' : State), newOps ++ t = stepOps n →
      n ∉ st.dirs → st'.dirs = st.dirs ++ [n] →
      (∀ op, opCount op st'.trace = opCount op st.trace + List.count op newOps) →
      WrittenOnce st' := by
    intro newOps t st' hpt hmem hd htr
    refine ⟨?_, ?_⟩
    · rw [hd, List.nodup_append]
      refine ⟨h.1, List.nodup_singleton _, ?_⟩
      intro a ha hb
      rw [List.mem_singleton] at hb
      exact hmem (hb ▸ ha)
    · intro m op hop
      have hle : List.count op newOps ≤ List.count op (stepOps n) := by
        rw [← hpt, List.count_append]; omega
      rw [count_stepOps m n op hop] at hle
      have hold := h.2 m op hop
      rw [htr, hd]
      by_cases hmn : m = n
      · subst hmn
        simp only [hmem, if_false, if_true] at hold hle
        simp
        omega
      · simp only [hmn, if_false] at hle
        have : (m ∈ st.dirs ++ [n]) ↔ m ∈ st.dirs := by simp [hmn]
        simp only [this]
        omega
  rcases exportStep_spec w n st nx st' hs with ⟨hmem, -, hst⟩ |
    ⟨hmem, pre, op, post, e, -, hops, -, -, htr, -, -, hd⟩ | ⟨hmem, -, hst, -⟩
  · rw [hst]
    exact writtenOnce_log st _ _ h (fun m hm => (serialOps_ne m _ hm).1 n rfl)
  · rcases hd with ⟨hpre, hd⟩ | ⟨-, hd⟩
    · subst hpre
      have hop : op = .mkdir n := by
        simp only [stepOps, List.nil_append, List.cons_append, List.cons.injEq] at hops
        exact hops.1.symm
      refine writtenOnce_of_trace st st' [⟨op, .err e⟩] h hd (by simpa [okEvents] using htr) ?_
      intro m op' hop'
      rw [opCount_single, hop]
      have : Op.mkdir n ≠ op' := fun e => (serialOps_ne m op' hop').1 n e.symm
      simp [this]
    · refine hgrow (pre ++ [op]) post st' (by simp [hops]) hmem hd ?_
      intro op'
      rw [htr, opCount_append, opCount_append, opCount_okEvents, opCount_single,
        List.count_append, List.count_singleton]
      by_cases ho : op = op'
      · simp [ho, Nat.add_assoc]
      · have : ¬ (op' == op) = true := by simpa using fun e => ho (Eq.symm e)
        simp [ho, Nat.add_assoc]
  · refine hgrow (stepOps n) [] st' (by simp) hmem (by rw [hst]) ?_
    intro op'
    rw [hst]
    simp [opCount_append, opCount_okEvents]

theorem writtenOnce_refs (w : World) (fuel : Nat) (args : List String) (st : State)
    (r : Option Err) (st' : State) (h : WrittenOnce st)
    (hr : exportRefs w fuel args st = some (r, st')) : WrittenOnce st' := by
  refine exportRefs_rule w fuel (fun _ s => WrittenOnce s) ?_ ?_ ?_ ?_ args st r st' h hr
  · intro n s nx s' _ hQ hs
    exact ⟨fun _ _ => writtenOnce_step w n s nx s' hQ hs,
      fun _ _ => writtenOnce_step w n s nx s' hQ hs⟩
  · intro n s hQ
    exact writtenOnce_log s _ _ hQ (fun m hm => (serialOps_ne m _ hm).2.1 n rfl)
  · intro name s hQ _
    exact writtenOnce_log s _ _ hQ (fun m hm => (serialOps_ne m _ hm).2.2.1 name rfl)
  · intro name s e hQ _
    exact writtenOnce_log s _ _ hQ (fun m hm => (serialOps_ne m _ hm).2.2.1 name rfl)

theorem writtenOnce_finish (w : World) (st : State) (r : Option Err) (st' : State)
    (h : WrittenOnce st) (hf : finish w st = (r, st')) : WrittenOnce st' := by
  unfold finish at hf
  cases hw : writeRepositories w st with
  | mk r1 st1 =>
    obtain ⟨hd, -, -, -, htr⟩ := writeRepositories_spec w st r1 st1 hw
    have h1 : WrittenOnce st1 := by
      rcases htr with ⟨-, htr | htr⟩ | ⟨e, -, -, htr⟩
      · exact writtenOnce_of_trace st st1 [] h hd (by simpa using htr)
          (fun _ _ _ => by simp [opCount])
      · refine writtenOnce_of_trace st st1 _ h hd htr ?_
        intro m op hop
        rw [opCount_single]
        have : Op.writeRepositories ≠ op := fun e => (serialOps_ne m op hop).2.2.2.2.1 e.symm
        simp [this]
      · refine writtenOnce_of_trace st st1 _ h hd htr ?_
        intro m op hop
        rw [opCount_single]
        have : Op.writeRepositories ≠ op := fun e => (serialOps_ne m op hop).2.2.2.2.1 e.symm
        simp [this]
    rw [hw] at hf
    cases r1 with
    | some e =>
      simp only [Prod.mk.injEq] at hf
      rw [← hf.2]; exact h1
    | none =>
      simp only at hf
      obtain ⟨hd2, -, -, htr2⟩ := emit_spec w st1 r st' hf
      have htar : ∀ m, ∀ op ∈ serialOps m, Op.tar ≠ op ∧ Op.copy ≠ op := fun m op hop =>
        ⟨fun e => (serialOps_ne m op hop).2.2.2.2.2.1 e.symm,
         fun e => (serialOps_ne m op hop).2.2.2.2.2.2 e.symm⟩
      rcases htr2 with ⟨-, htr2⟩ | ⟨e, -, -, htr2, -⟩ | ⟨e, -, -, htr2⟩
      · refine writtenOnce_of_trace st1 st' _ h1 hd2 htr2 ?_
        intro m op hop
        have := htar m op hop
        show List.count op [Op.tar, Op.copy] = 0
        rw [List.count_eq_zero]
        simp [this.1.symm, this.2.symm]
      · refine writtenOnce_of_trace st1 st' _ h1 hd2 htr2 ?_
        intro m op hop
        have := htar m op hop
        show List.count op [Op.tar] = 0
        rw [List.count_eq_zero]
        simp [this.1.symm]
      · refine writtenOnce_of_trace st1 st' _ h1 hd2 (by rw [htr2, List.append_assoc]) ?_
        intro m op hop
        have := htar m op hop
        show List.count op [Op.tar, Op.copy] = 0
        rw [List.count_eq_zero]
        simp [this.1.symm, this.2.symm]

theorem writtenOnce_call (w : World) (fuel : Nat) (args : List String) (o : Outcome)
    (h : CmdImageExport w fuel args = some o) : WrittenOnce o.final := by
  have hinit : WrittenOnce State.init :=
    ⟨List.nodup_nil, fun _ _ _ => by simp [State.init, opCount]⟩
  obtain ⟨-, hcases⟩ := CmdImageExport_spec w fuel args o h
  rcases hcases with ⟨-, -, hf⟩ | ⟨-, e, -, -, hf⟩ | ⟨-, -, r1, st1, hrefs, hres⟩
  · rw [hf]; exact hinit
  · rw [hf]
    exact writtenOnce_log _ _ _ hinit (fun m hm => (serialOps_ne m _ hm).2.2.2.1 rfl)
  · have h1 : WrittenOnce st1 :=
      writtenOnce_refs w fuel args _ r1 st1
        (writtenOnce_log _ _ _ hinit (fun m hm => (serialOps_ne m _ hm).2.2.2.1 rfl)) hrefs
    rcases hres with ⟨e, -, -, hf⟩ | ⟨-, hfin⟩
    · rw [hf]; exact h1
    · exact writtenOnce_finish w st1 o.status o.final h1 hfin.symm

/-- A walk that starts at a staged image returns at once, without error. -/
theorem exportLoop_staged (w : World) (k : Nat) (n : ImageID) (st : State)
    (hn : n ∈ st.dirs) (hne : n ≠ "") :
    exportLoop w (k + 1) n st = some (none, st.log (.mkdir n) .existed) := by
  unfold exportLoop
  rw [if_neg hne]
  simp [exportStep, occupied_of_mem w st.dirs n hn]

/-- C3: within one export call no image is serialized twice: there is one directory
per staged ID and each of the writes into it (version marker, metadata descriptor,
filesystem diff and the creation of their files) is attempted at most once per ID; a
walk that starts at, or a loop that reaches, an ID already staged returns without error
and leaves the staging tree, the `repoMap` and the number of writes as they were. -/
theorem serialized_once (w : World) :
    (∀ fuel args o, CmdImageExport w fuel args = some o →
      o.final.dirs.Nodup ∧ ∀ n, ∀ op ∈ serialOps n, opCount op o.final.trace ≤ 1) ∧
    (∀ k n st, n ∈ st.dirs →
      ∃ st', exportImage w (k + 1) n st = some (none, st') ∧ st'.dirs = st.dirs ∧
        st'.repositories = st.repositories ∧ st'.repoMap = st.repoMap ∧
        ∀ m, ∀ op ∈ serialOps m, opCount op st'.trace = opCount op st.trace) ∧
    (∀ k n st, n ∈ st.dirs →
      ∃ st', exportLoop w (k + 1) n st = some (none, st') ∧ st'.dirs = st.dirs ∧
        st'.repositories = st.repositories ∧ st'.repoMap = st.repoMap ∧
        ∀ m, ∀ op ∈ serialOps m, opCount op st'.trace = opCount op st.trace) := by
  have hloop : ∀ k n st, n ∈ st.dirs →
      ∃ st', exportLoop w (k + 1) n st = some (none, st') ∧ st'.dirs = st.dirs ∧
        st'.repositories = st.repositories ∧ st'.repoMap = st.repoMap ∧
        ∀ m, ∀ op ∈ serialOps m, opCount op st'.trace = opCount op st.trace := by
    intro k n st hn
    by_cases hne : n = ""
    · refine ⟨st, ?_, rfl, rfl, rfl, fun _ _ _ => rfl⟩
      unfold exportLoop
      simp [hne]
    · refine ⟨_, exportLoop_staged w k n st hn hne, rfl, rfl, rfl, ?_⟩
      intro m op hop
      exact opCount_log op _ _ st (fun e => (serialOps_ne m op hop).1 n e.symm)
  refine ⟨?_, ?_, hloop⟩
  · intro fuel args o h
    obtain ⟨h1, h2⟩ := writtenOnce_call w fuel args o h
    refine ⟨h1, fun n op hop => le_trans (h2 n op hop) ?_⟩
    split <;> omega
  · intro k n st hn
    obtain ⟨st', h1, h2, h3, h4, h5⟩ := hloop k n (st.log (.walk n) .ok) hn
    refine ⟨st', h1, h2, h3, h4, ?_⟩
    intro m op hop
    rw [h5 m op hop]
    exact opCount_log op _ _ st (fun e => (serialOps_ne m op hop).2.1 n e.symm)

/-- Witness for C3: the request `[X, Y]`, where `Y` is the parent of `X`, yields one
directory for `Y`; the walk for the second reference starts at the staged `Y`. -/
theorem serialized_once_witness :
    ∃ o, CmdImageExport lineage 3 ["X", "Y"] = some o ∧ o.status = none ∧
      o.final.dirs = ["X", "Y"] ∧ o.final.dirs.Nodup ∧
      (∀ n, ∀ op ∈ serialOps n, opCount op o.final.trace ≤ 1) ∧
      ∃ st', exportImage lineage 1 "Y" o.final = some (none, st') ∧ st'.dirs = ["X", "Y"] :=
  ⟨_, rfl, rfl, rfl, ((serialized_once lineage).1 3 ["X", "Y"] _ rfl).1,
    ((serialized_once lineage).1 3 ["X", "Y"] _ rfl).2,
    (((serialized_once lineage).2.1 0 "Y" _ (by decide)).imp
      (fun _ h => ⟨h.1, h.2.1⟩))⟩

/-! ## The repository map -/

theorem reflects_refs (w : World) (hwf : WFCatalog w.Repositories) (fuel : Nat)
    (args : List String) (st : State) (r : Option Err) (st' : State) (h : Reflects w st)
    (hr : exportRefs w fuel args st = some (r, st')) : r = none → Reflects w st' := by
  refine exportRefs_rule w fuel (fun r s => r = none → Reflects w s) ?_ ?_ ?_ ?_
    args st r st' (fun _ => h) hr
  · intro n s nx s' _ hQ hs
    have hQ := hQ rfl
    rcases exportStep_spec w n s nx s' hs with ⟨-, hnx, hst⟩ |
      ⟨-, pre, op, post, e, hnx, -⟩ | ⟨hmem, hnx, hst, -⟩
    · subst hnx; subst hst
      exact ⟨fun r hr _ => hQ, fun p hp => by simp at hp⟩
    · subst hnx
      exact ⟨fun r hr hnone => by simp only [Next.stop.injEq] at hr; rw [← hr] at hnone;
                                  simp at hnone,
        fun p hp => by simp at hp⟩
    · subst hnx; subst hst
      refine ⟨fun r hr => by simp at hr, fun p _ _ => ⟨?_, ?_, hQ.2.2⟩⟩
      · intro r t i
        show tagOf (scanRepositories w.Repositories n s.repoMap) r t = some i ↔
          tagOf w.Repositories r t = some i ∧ i ∈ s.dirs ++ [n]
        rw [tagOf_scanRepositories, tagged_iff_tagOf _ hwf, hQ.1 r t i, List.mem_append,
          List.mem_singleton]
        constructor
        · rintro (⟨h1, h2⟩ | ⟨-, h1, h2⟩)
          · exact ⟨h2 ▸ h1, Or.inr h2⟩
          · exact ⟨h1, Or.inl h2⟩
        · rintro ⟨h1, h2⟩
          by_cases hn : tagOf w.Repositories r t = some n
          · left
            rw [h1] at hn
            exact ⟨h1 ▸ hn ▸ rfl, Option.some.inj hn⟩
          · right
            refine ⟨hn, h1, ?_⟩
            rcases h2 with h2 | h2
            · exact h2
            · exact absurd (h2 ▸ h1) hn
      · exact noEmptyRepo_scanRepositories _ _ _ hQ.2.1
  · intro n s hQ hnone
    exact hQ hnone
  · intro name s hQ _ hnone
    exact hQ hnone
  · intro name s e _ _ hnone
    simp at hnone

theorem reflects_call (w : World) (hwf : WFCatalog w.Repositories) (fuel : Nat)
    (args : List String) (o : Outcome) (h : CmdImageExport w fuel args = some o)
    (hok : o.status = none) :
    ∃ st1, Reflects w st1 ∧ o.final.dirs = st1.dirs ∧ o.final.repoMap = st1.repoMap ∧
      o.final.repositories = if st1.repoMap.length > 0 then some st1.repoMap else none := by
  obtain ⟨-, hcases⟩ := CmdImageExport_spec w fuel args o h
  rcases hcases with ⟨-, hs, -⟩ | ⟨-, e, -, hs, -⟩ | ⟨-, -, r1, st1, hrefs, hres⟩
  · rw [hs] at hok; simp at hok
  · rw [hs] at hok; simp at hok
  · rcases hres with ⟨e, -, hs, -⟩ | ⟨hr1, hfin⟩
    · rw [hs] at hok; simp at hok
    · have hinit : Reflects w (State.init.log .tempDir .ok) :=
        ⟨fun r t i => by simp [State.init, State.log, tagOf],
          fun p hp => by simp [State.init, State.log] at hp, rfl⟩
      have h1 := reflects_refs w hwf fuel args _ r1 st1 hinit hrefs hr1
      obtain ⟨hd, hm, hrep⟩ := finish_spec w st1 o.status o.final hfin.symm
      refine ⟨st1, h1, hd, hm, ?_⟩
      rw [hrep hok, h1.2.2]

/-- C4: after an export call that completes without error, the `repoMap` sends
repository `r` and tag `t` to image `i` exactly when the repository catalog does and
`i` is staged. -/
theorem repoMap_reflects_export (w : World) (hwf : WFCatalog w.Repositories) (fuel : Nat)
    (args : List String) (o : Outcome) (h : CmdImageExport w fuel args = some o)
    (hok : o.status = none) (r t : String) (i : ImageID) :
    tagOf o.final.repoMap r t = some i ↔
      tagOf w.Repositories r t = some i ∧ i ∈ o.final.dirs := by
  obtain ⟨st1, h1, hd, hm, -⟩ := reflects_call w hwf fuel args o h hok
  rw [hd, hm]
  exact h1.1 r t i

/-- Witness for C4: exporting image `A` by its ID records both `busybox:latest` and
`alpine:edge`, and not the tag `busybox:old`, which points at the image `C` that is not
exported. -/
theorem repoMap_reflects_export_witness :
    (CmdImageExport shared 3 ["A"]).map (fun o => (o.status, o.final.dirs, o.final.repoMap)) =
      some (none, ["A", "B"], [("busybox", [("latest", "A")]), ("alpine", [("edge", "A")])]) ∧
    (tagOf [("busybox", [("latest", "A")]), ("alpine", [("edge", "A")])] "busybox" "old"
        = some "C" ↔
      tagOf shared.Repositories "busybox" "old" = some "C" ∧ "C" ∈ ["A", "B"]) :=
  ⟨rfl, repoMap_reflects_export shared
    ⟨by decide, by decide⟩ 3 ["A"] _ rfl rfl "busybox" "old" "C"⟩

/-- C8: after an export call that completes without error, the `repositories` file
exists exactly when some staged image is the value of some tag of some known repository,
and its content is the `repoMap`. -/
theorem repositories_file_iff (w : World) (hwf : WFCatalog w.Repositories) (fuel : Nat)
    (args : List String) (o : Outcome) (h : CmdImageExport w fuel args = some o)
    (hok : o.status = none) :
    (o.final.repositories ≠ none ↔
      ∃ r t i, tagOf w.Repositories r t = some i ∧ i ∈ o.final.dirs) ∧
    (∀ rm, o.final.repositories = some rm → rm = o.final.repoMap) := by
  obtain ⟨st1, h1, hd, hm, hrep⟩ := reflects_call w hwf fuel args o h hok
  have hne : st1.repoMap.length > 0 ↔ st1.repoMap ≠ [] := by
    rw [gt_iff_lt, List.length_pos]
  constructor
  · rw [hrep, hd]
    constructor
    · intro hsome
      by_cases hlen : st1.repoMap.length > 0
      · obtain ⟨r, t, i, hi⟩ := (ne_nil_iff_tagOf _ h1.2.1).1 (hne.1 hlen)
        exact ⟨r, t, i, (h1.1 r t i).1 hi⟩
      · simp [hlen] at hsome
    · rintro ⟨r, t, i, hi⟩
      have : st1.repoMap.length > 0 :=
        hne.2 ((ne_nil_iff_tagOf _ h1.2.1).2 ⟨r, t, i, (h1.1 r t i).2 hi⟩)
      simp [this]
  · intro rm hrm
    rw [hrep] at hrm
    by_cases hlen : st1.repoMap.length > 0
    · simp only [hlen, if_true, Option.some.injEq] at hrm
      rw [hm, hrm]
    · simp [hlen] at hrm

/-- Witness for C8: the request `[X]` in a world without repositories writes no
`repositories` file. -/
theorem repositories_file_iff_witness :
    (CmdImageExport lineage 3 ["X"]).map (fun o => (o.status, o.final.repositories)) =
      some (none, none) ∧
    (((none : Option RepoMap) ≠ none ↔
      ∃ r t i, tagOf lineage.Repositories r t = some i ∧ i ∈ ["X", "Y"]) ∧
    (∀ rm, (none : Option RepoMap) = some rm →
      rm = [])) :=
  ⟨rfl, repositories_file_iff lineage ⟨by decide, by decide⟩ 3 ["X"] _ rfl rfl⟩

/-! ## Errors -/

theorem noErr_append (a b : List Event) (ha : NoErr a) (hb : NoErr b) : NoErr (a ++ b) := by
  intro ev hev
  rcases List.mem_append.1 hev with h | h
  · exact ha ev h
  · exact hb ev h

theorem noErr_okEvents (ops : List Op) : NoErr (okEvents ops) := by
  intro ev hev e
  simp only [okEvents, List.mem_map] at hev
  obtain ⟨op, -, rfl⟩ := hev
  simp

theorem noErr_single (op : Op) (r : Res) (hr : ∀ e, r ≠ .err e) : NoErr [⟨op, r⟩] := by
  intro ev hev e
  rw [List.mem_singleton] at hev
  rw [hev]
  exact hr e

theorem good_log (st : State) (op : Op) (r : Res) (h : Good st) (hr : ∀ e, r ≠ .err e) :
    Good (st.log op r) :=
  ⟨noErr_append _ _ h.1 (noErr_single op r hr), h.2⟩

theorem failed_log (w : World) (st : State) (op : Op) (e : Err) (h : Good st)
    (hf : w.fail op = some e) : Failed w e (st.log op (.err e)) :=
  ⟨st.trace, op, rfl, hf, h.1, fun _ => h.2⟩

theorem sound_step (w : World) (n : ImageID) (st : State) (nx : Next) (st' : State)
    (h : Good st) (hs : exportStep w n st = (nx, st')) :
    (∀ r, nx = .stop r → Sound w r st') ∧ (∀ p, nx = .next p → Good st') := by
  rcases exportStep_spec w n st nx st' hs with ⟨-, hnx, hst⟩ |
    ⟨-, pre, op, post, e, hnx, -, hf, -, htr, hsink, -, -⟩ | ⟨-, hnx, hst, -⟩
  · subst hnx; subst hst
    refine ⟨fun r hr => ?_, fun p hp => by simp at hp⟩
    simp only [Next.stop.injEq] at hr
    subst hr
    exact good_log st _ _ h (by simp)
  · subst hnx
    refine ⟨fun r hr => ?_, fun p hp => by simp at hp⟩
    simp only [Next.stop.injEq] at hr
    subst hr
    exact ⟨st.trace ++ okEvents pre, op, htr, hf, noErr_append _ _ h.1 (noErr_okEvents _),
      fun _ => by rw [hsink]; exact h.2⟩
  · subst hnx; subst hst
    exact ⟨fun r hr => by simp at hr,
      fun p _ => ⟨noErr_append _ _ h.1 (noErr_okEvents _), h.2⟩⟩

theorem sound_refs (w : World) (fuel : Nat) (args : List String) (st : State)
    (r : Option Err) (st' : State) (h : Good st)
    (hr : exportRefs w fuel args st = some (r, st')) : Sound w r st' := by
  refine exportRefs_rule w fuel (Sound w) ?_ ?_ ?_ ?_ args st r st' h hr
  · intro n s nx s' _ hQ hs
    exact sound_step w n s nx s' hQ hs
  · intro n s hQ
    exact good_log s _ _ hQ (by simp)
  · intro name s hQ _
    exact good_log s _ _ hQ (by simp)
  · intro name s e hQ hf
    exact failed_log w s _ e hQ hf

theorem sound_finish (w : World) (st : State) (r : Option Err) (st' : State) (h : Good st)
    (hf : finish w st = (r, st')) :
    (∀ e, r = some e → Failed w e st') ∧ (r = none → NoErr st'.trace) := by
  unfold finish at hf
  cases hw : writeRepositories w st with
  | mk r1 st1 =>
    obtain ⟨-, -, hsink, -, htr⟩ := writeRepositories_spec w st r1 st1 hw
    rw [hw] at hf
    rcases htr with ⟨hr1, htr⟩ | ⟨e, hr1, hfail, htr⟩
    · subst hr1
      simp only at hf
      have h1 : Good st1 := by
        refine ⟨?_, by rw [hsink]; exact h.2⟩
        rcases htr with htr | htr
        · rw [htr]; exact h.1
        · rw [htr]; exact noErr_append _ _ h.1 (noErr_single _ _ (by simp))
      obtain ⟨-, -, -, htr2⟩ := emit_spec w st1 r st' hf
      rcases htr2 with ⟨hr, htr2⟩ | ⟨e, hr, hfail, htr2, hsink2⟩ | ⟨e, hr, hfail, htr2⟩
      · subst hr
        refine ⟨fun e he => by simp at he, fun _ => ?_⟩
        rw [htr2]
        refine noErr_append _ _ h1.1 ?_
        intro ev hev e
        simp only [List.mem_cons, List.mem_singleton, List.not_mem_nil, or_false] at hev
        rcases hev with hev | hev <;> rw [hev] <;> simp
      · subst hr
        refine ⟨fun e' he' => ?_, fun hn => by simp at hn⟩
        simp only [Option.some.injEq] at he'
        subst he'
        exact ⟨st1.trace, .tar, htr2, hfail, h1.1, fun _ => by rw [hsink2]; exact h1.2⟩
      · subst hr
        refine ⟨fun e' he' => ?_, fun hn => by simp at hn⟩
        simp only [Option.some.injEq] at he'
        subst he'
        exact ⟨st1.trace ++ [⟨.tar, .ok⟩], .copy, htr2, hfail,
          noErr_append _ _ h1.1 (noErr_single _ _ (by simp)), fun hne => absurd rfl hne⟩
    · subst hr1
      simp only [Prod.mk.injEq] at hf
      obtain ⟨hr, hst⟩ := hf
      subst hr; subst hst
      refine ⟨fun e' he' => ?_, fun hn => by simp at hn⟩
      simp only [Option.some.injEq] at he'
      subst he'
      exact ⟨st.trace, .writeRepositories, htr, hfail, h.1, fun _ => by rw [hsink]; exact h.2⟩

/-- C7 as stated fails: when the copy to the output fails after one byte, the call
returns the error although the output has received a part of the archive. -/
theorem truncated_archive_emitted :
    (CmdImageExport brokenPipe 3 ["X"]).map (fun o => (o.status, o.final.sink)) =
      some (some "broken pipe", [1]) ∧
    brokenPipe.archive ["X", "Y"] none = [1, 1] :=
  ⟨rfl, rfl⟩

/-- C7, amended: a call that returns an error returns the error of the one operation
that failed; that operation is the last entry of the log (nothing is processed after
it) and no operation failed before it; the output has received no byte unless the
failed operation is the final copy to the output.  The usage error of a call without
arguments comes before any operation.  A call that returns success has met no failure. -/
theorem first_error_aborts (w : World) (fuel : Nat) (args : List String) (o : Outcome)
    (h : CmdImageExport w fuel args = some o) :
    (∀ e, o.status = some e →
      (args = [] ∧ e = usage w ∧ o.final.trace = [] ∧ o.final.sink = []) ∨
      (∃ pre op, o.final.trace = pre ++ [⟨op, .err e⟩] ∧ w.fail op = some e ∧ NoErr pre ∧
        (op ≠ .copy → o.final.sink = []))) ∧
    (o.status = none → NoErr o.final.trace) := by
  have hinit : Good State.init := ⟨fun ev hev => by simp [State.init] at hev, rfl⟩
  obtain ⟨-, hcases⟩ := CmdImageExport_spec w fuel args o h
  rcases hcases with ⟨hargs, hs, hf⟩ | ⟨-, e, hfail, hs, hf⟩ | ⟨-, -, r1, st1, hrefs, hres⟩
  · refine ⟨fun e he => Or.inl ⟨hargs, ?_, by rw [hf]; rfl, by rw [hf]; rfl⟩,
      fun hn => by rw [hs] at hn; simp at hn⟩
    rw [hs] at he
    exact (Option.some.inj he).symm
  · refine ⟨fun e' he' => Or.inr ?_, fun hn => by rw [hs] at hn; simp at hn⟩
    rw [hs, Option.some.injEq] at he'
    subst he'
    rw [hf]
    exact failed_log w _ _ e hinit hfail
  · have h1 := sound_refs w fuel args _ r1 st1 (good_log _ _ _ hinit (by simp)) hrefs
    rcases hres with ⟨e, hr1, hs, hf⟩ | ⟨hr1, hfin⟩
    · subst hr1
      refine ⟨fun e' he' => Or.inr ?_, fun hn => by rw [hs] at hn; simp at hn⟩
      rw [hs, Option.some.injEq] at he'
      subst he'
      rw [hf]
      exact h1
    · subst hr1
      obtain ⟨h2, h3⟩ := sound_finish w st1 o.status o.final h1 hfin.symm
      exact ⟨fun e he => Or.inr (h2 e he), h3⟩

/-- Witness for C7 (amended): the walk from `X` fails at the metadata fetch of its
parent `Y`; the second reference `Z` is not processed and nothing is emitted. -/
theorem first_error_aborts_witness :
    ∃ o, CmdImageExport lostParent 3 ["X", "Z"] = some o ∧
      o.status = some "No such image: Y" ∧ o.final.dirs = ["X", "Y"] ∧ o.final.sink = [] ∧
      ((∀ e, o.status = some e →
        (["X", "Z"] = [] ∧ e = usage lostParent ∧ o.final.trace = [] ∧ o.final.sink = []) ∨
        (∃ pre op, o.final.trace = pre ++ [⟨op, .err e⟩] ∧ lostParent.fail op = some e ∧
          NoErr pre ∧ (op ≠ .copy → o.final.sink = []))) ∧
      (o.status = none → NoErr o.final.trace)) :=
  ⟨_, rfl, rfl, rfl, rfl, first_error_aborts lostParent 3 ["X", "Z"] _ rfl⟩

/-! ## The log of a walk -/

theorem walkStarts_append (a b : List Event) :
    walkStarts (a ++ b) = walkStarts a ++ walkStarts b := by
  induction a with
  | nil => rfl
  | cons ev evs ih =>
    obtain ⟨op, r⟩ := ev
    cases op <;> simp [walkStarts, ih]

theorem walkStarts_inner (new : List Event) (h : Inner new) : walkStarts new = [] := by
  induction new with
  | nil => rfl
  | cons ev evs ih =>
    have hev := (h ev (List.mem_cons_self _ _)).1
    have ih := ih (fun e he => h e (List.mem_cons_of_mem _ he))
    obtain ⟨op, r⟩ := ev
    cases op <;> simp_all [walkStarts]

theorem inner_append (a b : List Event) (ha : Inner a) (hb : Inner b) : Inner (a ++ b) := by
  intro ev hev
  rcases List.mem_append.1 hev with h | h
  · exact ha ev h
  · exact hb ev h

theorem stepOps_inner (n : ImageID) (op : Op) (hop : op ∈ stepOps n) :
    (∀ m, op ≠ .walk m) ∧ (∀ name, op ≠ .lookup name) := by
  simp only [stepOps, serialOps, List.mem_cons, List.mem_append, List.mem_singleton,
    List.not_mem_nil, or_false] at hop
  rcases hop with (e | e | e | e | e | e) | e <;> subst e <;> simp

theorem passes_append (a b : List Event) : passes (a ++ b) = passes a + passes b := by
  simp [passes, List.countP_append]

theorem passes_okEvents_serial (ops : List Op) (h : ∀ op ∈ ops, ∀ n, op ≠ .mkdir n) :
    passes (okEvents ops) = 0 := by
  unfold passes
  rw [List.countP_eq_zero]
  intro ev hev
  simp only [okEvents, List.mem_map] at hev
  obtain ⟨op, hop, rfl⟩ := hev
  cases op with
  | mkdir m => exact absurd rfl (h _ hop m)
  | _ => simp

/-- The log entries of one pass: they belong to the operations of the pass, and exactly
one of them is the directory creation. -/
theorem exportStep_trace (w : World) (n : ImageID) (st : State) (nx : Next) (st' : State)
    (hs : exportStep w n st = (nx, st')) :
    ∃ new, st'.trace = st.trace ++ new ∧ (∀ ev ∈ new, ev.op ∈ stepOps n) ∧
      passes new = 1 := by
  have hrest : ∀ op ∈ serialOps n ++ [Op.imageGet n], ∀ m, op ≠ .mkdir m := by
    intro op hop m
    simp only [serialOps, List.mem_cons, List.mem_append, List.mem_singleton,
      List.not_mem_nil, or_false] at hop
    rcases hop with (e | e | e | e | e) | e <;> subst e <;> simp
  have hfull : passes (okEvents (stepOps n)) = 1 := by
    have : okEvents (stepOps n) =
        [⟨.mkdir n, .ok⟩] ++ okEvents (serialOps n ++ [Op.imageGet n]) := by
      simp [okEvents, stepOps]
    rw [this, passes_append, passes_okEvents_serial _ hrest]
    simp [passes]
  rcases exportStep_spec w n st nx st' hs with ⟨-, -, hst⟩ |
    ⟨-, pre, op, post, e, -, hops, -, -, htr, -, -, -⟩ | ⟨-, -, hst, -⟩
  · refine ⟨[⟨.mkdir n, .existed⟩], by rw [hst]; rfl, ?_, by simp [passes]⟩
    intro ev hev
    rw [List.mem_singleton] at hev
    rw [hev]
    simp [stepOps]
  · refine ⟨okEvents pre ++ [⟨op, .err e⟩], by rw [htr, List.append_assoc], ?_, ?_⟩
    · intro ev hev
      rw [hops]
      simp only [okEvents, List.mem_append, List.mem_map, List.mem_singleton] at hev
      rcases hev with ⟨o, ho, rfl⟩ | hev
      · exact List.mem_append_left _ ho
      · rw [hev]; simp
    · cases pre with
      | nil =>
        simp only [stepOps, List.nil_append, List.cons_append, List.cons.injEq] at hops
        rw [← hops.1]
        simp [passes, okEvents]
      | cons p pre' =>
        simp only [stepOps, List.cons_append, List.cons.injEq] at hops
        obtain ⟨hp, hrest'⟩ := hops
        have hpre' : ∀ o ∈ pre' ++ [op], ∀ m, o ≠ .mkdir m := by
          intro o ho
          apply hrest o
          rw [hrest']
          rcases List.mem_append.1 ho with h1 | h1
          · exact List.mem_append_left _ h1
          · rw [List.mem_singleton] at h1
            rw [h1]; simp
        have h0 : passes (okEvents pre') = 0 :=
          passes_okEvents_serial _ (fun o ho => hpre' o (List.mem_append_left _ ho))
        have h1 : passes [(⟨op, .err e⟩ : Event)] = 0 := by
          have := hpre' op (by simp)
          unfold passes
          rw [List.countP_eq_zero]
          intro ev hev
          rw [List.mem_singleton] at hev
          rw [hev]
          cases op with
          | mkdir m => exact absurd rfl (this m)
          | _ => simp
        have h2 : okEvents (p :: pre') = [⟨.mkdir n, .ok⟩] ++ okEvents pre' := by
          simp [okEvents, hp]
        rw [h2, passes_append, passes_append, h0, h1]
        simp [passes]
  · refine ⟨okEvents (stepOps n), by rw [hst], ?_, hfull⟩
    intro ev hev
    simp only [okEvents, List.mem_map] at hev
    obtain ⟨o, ho, rfl⟩ := hev
    exact ho

theorem exportLoop_trace (w : World) (fuel : Nat) (n : ImageID) (st : State)
    (r : Option Err) (st' : State) (h : exportLoop w fuel n st = some (r, st')) :
    ∃ new, st'.trace = st.trace ++ new ∧ Inner new := by
  refine exportLoop_rule w (fun _ s => ∃ new, s.trace = st.trace ++ new ∧ Inner new) ?_
    fuel n st r st' ⟨[], by simp, fun ev hev => by simp at hev⟩ h
  intro m s nx s' _ hQ hs
  obtain ⟨new, hnew, hin⟩ := hQ
  obtain ⟨new2, hnew2, hops, -⟩ := exportStep_trace w m s nx s' hs
  have : ∃ new', s'.trace = st.trace ++ new' ∧ Inner new' :=
    ⟨new ++ new2, by rw [hnew2, hnew, List.append_assoc],
      inner_append _ _ hin (fun ev hev => stepOps_inner m ev.op (hops ev hev))⟩
  exact ⟨fun _ _ => this, fun _ _ => this⟩

theorem exportImage_trace (w : World) (fuel : Nat) (n : ImageID) (st : State)
    (r : Option Err) (st' : State) (h : exportImage w fuel n st = some (r, st')) :
    ∃ new, st'.trace = st.trace ++ ⟨.walk n, .ok⟩ :: new ∧ Inner new := by
  unfold exportImage at h
  obtain ⟨new, hnew, hin⟩ := exportLoop_trace w fuel n _ r st' h
  exact ⟨new, by rw [hnew]; simp [State.log], hin⟩

theorem exportAll_trace (w : World) (fuel : Nat) :
    ∀ ids st r st', exportAll w fuel ids st = some (r, st') →
      ∃ new, st'.trace = st.trace ++ new ∧ walkStarts new <+: ids ∧
        (r = none → walkStarts new = ids) ∧ ∀ ev ∈ new, ∀ name, ev.op ≠ .lookup name := by
  intro ids
  induction ids with
  | nil =>
    intro st r st' h
    simp only [exportAll, Option.some.injEq, Prod.mk.injEq] at h
    obtain ⟨hr, hst⟩ := h
    subst hr; subst hst
    exact ⟨[], by simp, ⟨[], rfl⟩, fun _ => rfl, fun ev hev => by simp at hev⟩
  | cons id ids ih =>
    intro st r st' h
    unfold exportAll at h
    cases hi : exportImage w fuel id st with
    | none => simp [hi] at h
    | some p =>
      obtain ⟨r1, st1⟩ := p
      obtain ⟨new1, hnew1, hin1⟩ := exportImage_trace w fuel id st r1 st1 hi
      have hw1 : walkStarts (⟨.walk id, .ok⟩ :: new1) = [id] := by
        have := walkStarts_inner new1 hin1
        simp [walkStarts, this]
      have hl1 : ∀ ev ∈ (⟨.walk id, .ok⟩ : Event) :: new1, ∀ name, ev.op ≠ .lookup name := by
        intro ev hev name
        rcases List.mem_cons.1 hev with e | hev
        · rw [e]; simp
        · exact (hin1 ev hev).2 name
      rw [hi] at h
      cases r1 with
      | some e =>
        simp only [Option.some.injEq, Prod.mk.injEq] at h
        obtain ⟨hr, hst⟩ := h
        subst hr; subst hst
        exact ⟨_, hnew1, ⟨ids, by rw [hw1]; rfl⟩, fun hr => by simp at hr, hl1⟩
      | none =>
        simp only at h
        obtain ⟨new2, hnew2, ⟨t, ht⟩, hall, hl2⟩ := ih st1 r st' h
        refine ⟨(⟨.walk id, .ok⟩ :: new1) ++ new2, by rw [hnew2, hnew1, List.append_assoc],
          ⟨t, ?_⟩, ?_, ?_⟩
        · rw [walkStarts_append, hw1, ← ht]; rfl
        · intro hr
          rw [walkStarts_append, hw1, hall hr]; rfl
        · intro ev hev
          rcases List.mem_append.1 hev with h1 | h1
          · exact hl1 ev h1
          · exact hl2 ev h1

/-! ## Termination -/

theorem unstaged_le (U : Finset ImageID) (dirs : List ImageID) : unstaged U dirs ≤ U.card :=
  Finset.card_filter_le _ _

theorem unstaged_lt (U : Finset ImageID) (dirs : List ImageID) (n : ImageID) (hn : n ∈ U)
    (hd : n ∉ dirs) : unstaged U (dirs ++ [n]) < unstaged U dirs := by
  unfold unstaged
  apply Finset.card_lt_card
  refine ⟨?_, ?_⟩
  · intro x hx
    simp only [Finset.mem_filter, List.mem_append, List.mem_singleton, not_or] at hx ⊢
    exact ⟨hx.1, hx.2.1⟩
  · intro hsub
    have h1 : n ∈ U.filter (fun m => m ∉ dirs) := by simp [hn, hd]
    have h2 := hsub h1
    simp at h2

/-- With fuel for one pass more than there are unstaged images, the loop returns, and it
makes no more passes than that. -/
theorem exportLoop_bounded (w : World) (U : Finset ImageID) (hU : ParentsIn w U) :
    ∀ fuel n st, unstaged U st.dirs + 1 ≤ fuel →
      ∃ r st', exportLoop w fuel n st = some (r, st') ∧
        passes st'.trace ≤ passes st.trace + unstaged U st.dirs + 1 := by
  intro fuel
  induction fuel with
  | zero => intro n st h; omega
  | succ fuel ih =>
    intro n st hfuel
    by_cases hn : n = ""
    · exact ⟨none, st, by unfold exportLoop; simp [hn], by omega⟩
    · cases hs : exportStep w n st with
      | mk nx st1 =>
        obtain ⟨new, hnew, -, hp⟩ := exportStep_trace w n st nx st1 hs
        have hp1 : passes st1.trace = passes st.trace + 1 := by
          rw [hnew, passes_append, hp]
        cases nx with
        | stop r =>
          refine ⟨r, st1, ?_, by omega⟩
          unfold exportLoop
          rw [if_neg hn, hs]
        | next p =>
          have heq : exportLoop w (fuel + 1) n st = exportLoop w fuel p st1 := by
            conv_lhs => unfold exportLoop
            rw [if_neg hn, hs]
          rw [heq]
          rcases exportStep_spec w n st _ st1 hs with ⟨-, hnx, -⟩ |
            ⟨-, pre, op, post, e, hnx, -⟩ | ⟨hmem, hnx, hst, -⟩
          · simp at hnx
          · simp at hnx
          · simp only [Next.next.injEq] at hnx
            have hd1 : st1.dirs = st.dirs ++ [n] := by rw [hst]
            by_cases hp0 : p = ""
            · refine ⟨none, st1, ?_, by omega⟩
              cases fuel <;> simp [exportLoop, hp0]
            · rcases hU n with h0 | ⟨hnU, -⟩
              · exact absurd (hnx.trans h0) hp0
              · have hlt := unstaged_lt U st.dirs n hnU hmem
                rw [← hd1] at hlt
                obtain ⟨r, st', hres, hpass⟩ := ih p st1 (by omega)
                exact ⟨r, st', hres, by omega⟩

theorem exportImage_returns (w : World) (U : Finset ImageID) (hU : ParentsIn w U)
    (fuel : Nat) (hfuel : U.card + 1 ≤ fuel) (n : ImageID) (st : State) :
    ∃ r st', exportImage w fuel n st = some (r, st') := by
  have := unstaged_le U (st.log (.walk n) .ok).dirs
  obtain ⟨r, st', h, -⟩ := exportLoop_bounded w U hU fuel n (st.log (.walk n) .ok) (by omega)
  exact ⟨r, st', h⟩

theorem exportAll_returns (w : World) (U : Finset ImageID) (hU : ParentsIn w U)
    (fuel : Nat) (hfuel : U.card + 1 ≤ fuel) :
    ∀ ids st, ∃ r st', exportAll w fuel ids st = some (r, st') := by
  intro ids
  induction ids with
  | nil => intro st; exact ⟨none, st, rfl⟩
  | cons id ids ih =>
    intro st
    obtain ⟨r1, st1, h1⟩ := exportImage_returns w U hU fuel hfuel id st
    unfold exportAll
    rw [h1]
    cases r1 with
    | some e => exact ⟨some e, st1, rfl⟩
    | none => exact ih st1

theorem exportRef_returns (w : World) (U : Finset ImageID) (hU : ParentsIn w U)
    (fuel : Nat) (hfuel : U.card + 1 ≤ fuel) (arg : String) (st : State) :
    ∃ r st', exportRef w fuel arg st = some (r, st') := by
  unfold exportRef
  simp only
  cases hl : List.lookup (w.normalize arg) w.Repositories with
  | some repo => exact exportAll_returns w U hU fuel hfuel _ st
  | none =>
    cases hf : w.fail (.lookup (w.normalize arg)) with
    | some e => exact ⟨some e, _, rfl⟩
    | none =>
      cases hi : w.image (w.normalize arg) with
      | some id => exact exportImage_returns w U hU fuel hfuel _ _
      | none => exact exportImage_returns w U hU fuel hfuel _ _

theorem exportRefs_returns (w : World) (U : Finset ImageID) (hU : ParentsIn w U)
    (fuel : Nat) (hfuel : U.card + 1 ≤ fuel) :
    ∀ args st, ∃ r st', exportRefs w fuel args st = some (r, st') := by
  intro args
  induction args with
  | nil => intro st; exact ⟨none, st, rfl⟩
  | cons arg args ih =>
    intro st
    obtain ⟨r1, st1, h1⟩ := exportRef_returns w U hU fuel hfuel arg st
    unfold exportRefs
    rw [h1]
    cases r1 with
    | some e => exact ⟨some e, st1, rfl⟩
    | none => exact ih st1

theorem CmdImageExport_returns (w : World) (U : Finset ImageID) (hU : ParentsIn w U)
    (fuel : Nat) (hfuel : U.card + 1 ≤ fuel) (args : List String) :
    ∃ o, CmdImageExport w fuel args = some o := by
  unfold CmdImageExport
  by_cases hlen : args.length < 1
  · rw [if_pos hlen]; exact ⟨_, rfl⟩
  · rw [if_neg hlen]
    cases hf : w.fail .tempDir with
    | some e => exact ⟨_, rfl⟩
    | none =>
      simp only
      obtain ⟨r1, st1, h1⟩ := exportRefs_returns w U hU fuel hfuel args
        (State.init.log .tempDir .ok)
      unfold exportBody
      rw [h1]
      cases r1 with
      | some e => exact ⟨_, rfl⟩
      | none => exact ⟨_, rfl⟩

/-- C10: for a parent relation on a finite set `U` of image IDs (cyclic or not) and
every start ID, the walk returns as soon as the fuel allows one pass more than there are
unstaged IDs in `U`, and it makes at most that many passes through the loop body; every
pass either stops the loop or stages one ID that was not staged before. -/
theorem walk_terminates (w : World) (U : Finset ImageID) (hU : ParentsIn w U)
    (n : ImageID) (st : State) (fuel : Nat) (hfuel : unstaged U st.dirs + 1 ≤ fuel) :
    (∃ r st', exportImage w fuel n st = some (r, st') ∧
      passes st'.trace ≤ passes st.trace + unstaged U st.dirs + 1) ∧
    (∀ m s nx s', exportStep w m s = (nx, s') →
      (∃ r, nx = .stop r) ∨ (m ∉ s.dirs ∧ s'.dirs = s.dirs ++ [m])) := by
  refine ⟨?_, ?_⟩
  · obtain ⟨r, st', h, hp⟩ :=
      exportLoop_bounded w U hU fuel n (st.log (.walk n) .ok) hfuel
    refine ⟨r, st', h, ?_⟩
    have h1 : passes (st.log (.walk n) .ok).trace = passes st.trace := by
      simp [State.log, passes_append, passes]
    have h2 : (st.log (.walk n) .ok).dirs = st.dirs := rfl
    rw [h1, h2] at hp
    exact hp
  · intro m s nx s' hs
    rcases exportStep_spec w m s nx s' hs with ⟨-, hnx, -⟩ |
      ⟨-, pre, op, post, e, hnx, -⟩ | ⟨hmem, hnx, hst, -⟩
    · exact Or.inl ⟨_, hnx⟩
    · exact Or.inl ⟨_, hnx⟩
    · exact Or.inr ⟨hmem, by rw [hst]⟩

theorem cyclic_parentsIn : ParentsIn cyclic {"A", "B"} := by
  intro m
  by_cases hA : m = "A"
  · right; subst hA; simp [cyclic, quiet]
  · by_cases hB : m = "B"
    · right; subst hB; simp [cyclic, quiet]
    · left; simp [cyclic, quiet, hA, hB]

/-- Witness for C10: on the cycle `A -> B -> A` the walk from `A` makes three passes
(it stages `A` and `B` and then finds `A` staged), one more than the two unstaged IDs. -/
theorem walk_terminates_witness :
    unstaged {"A", "B"} State.init.dirs = 2 ∧
    (∃ st', exportImage cyclic 3 "A" State.init = some (none, st') ∧
      st'.dirs = ["A", "B"] ∧ passes st'.trace = 3) ∧
    ∃ r st', exportImage cyclic 3 "A" State.init = some (r, st') ∧
      passes st'.trace ≤ passes State.init.trace + unstaged {"A", "B"} State.init.dirs + 1 :=
  ⟨by decide, ⟨_, rfl, rfl, by decide⟩,
    (walk_terminates cyclic {"A", "B"} cyclic_parentsIn "A" State.init 3 (by decide)).1⟩

/-! ## The resolution of a reference -/

/-- C5 as stated fails: the repository `busybox` has the tags `a` and `b` at the
images `A` and `B`; the walk from `A` fails at its metadata fetch, the error is returned
at once and no walk is started from `B`, a value of a tag of that repository. -/
theorem walks_stop_at_failure :
    (exportRef halted 3 "busybox" State.init).map (fun p => (p.1, walkStarts p.2.trace)) =
      some (some "No such image: A", ["A"]) ∧
    halted.Repositories.lookup (halted.normalize "busybox") = some [("a", "A"), ("b", "B")] :=
  ⟨rfl, rfl⟩

/-- C5, amended: the resolution of one reference, with `name` the normalized string.
(1) If `name` is a key of the repository catalog, the walks start from the values of the
tags of that repository, one after the other, until a walk fails (from all of them when
none fails), and the image lookup is not consulted.  Otherwise the lookup is consulted
first: (2) if it returns an image, there is one walk, from the ID of that image; (3) if
it returns neither an image nor an error, there is one walk, from `name` itself; a lookup
error is returned to the caller.  The resolution returns whenever the parent relation
lives on a finite set and the fuel exceeds the size of that set. -/
theorem resolution_policy (w : World) (fuel : Nat) (arg : String) (st : State) :
    (∀ repo, w.Repositories.lookup (w.normalize arg) = some repo →
      ∀ r st', exportRef w fuel arg st = some (r, st') →
        ∃ new, st'.trace = st.trace ++ new ∧ walkStarts new <+: repo.map Prod.snd ∧
          (r = none → walkStarts new = repo.map Prod.snd) ∧
          ∀ ev ∈ new, ∀ name, ev.op ≠ .lookup name) ∧
    (w.Repositories.lookup (w.normalize arg) = none →
      (∀ e, w.fail (.lookup (w.normalize arg)) = some e →
        exportRef w fuel arg st =
          some (some e, st.log (.lookup (w.normalize arg)) (.err e))) ∧
      (w.fail (.lookup (w.normalize arg)) = none →
        ∀ r st', exportRef w fuel arg st = some (r, st') →
          ∃ new, st'.trace = st.trace ++ ⟨.lookup (w.normalize arg), .ok⟩ :: new ∧
            (∀ id, w.image (w.normalize arg) = some id → walkStarts new = [id]) ∧
            (w.image (w.normalize arg) = none → walkStarts new = [w.normalize arg]))) ∧
    (∀ U : Finset ImageID, ParentsIn w U → U.card + 1 ≤ fuel →
      ∃ r st', exportRef w fuel arg st = some (r, st')) := by
  refine ⟨?_, ?_, fun U hU hfuel => exportRef_returns w U hU fuel hfuel arg st⟩
  · intro repo hl r st' h
    unfold exportRef at h
    simp only [hl] at h
    exact exportAll_trace w fuel _ st r st' h
  · intro hl
    refine ⟨?_, ?_⟩
    · intro e hf
      unfold exportRef
      simp only [hl, hf]
    · intro hf r st' h
      unfold exportRef at h
      simp only [hl, hf] at h
      have key : ∀ id, exportImage w fuel id (st.log (.lookup (w.normalize arg)) .ok) =
          some (r, st') →
          ∃ new, st'.trace = st.trace ++ ⟨.lookup (w.normalize arg), .ok⟩ :: new ∧
            walkStarts new = [id] := by
        intro id hi
        obtain ⟨new, hnew, hin⟩ := exportImage_trace w fuel id _ r st' hi
        refine ⟨⟨.walk id, .ok⟩ :: new, by rw [hnew]; simp [State.log], ?_⟩
        have := walkStarts_inner new hin
        simp [walkStarts, this]
      cases hi : w.image (w.normalize arg) with
      | some id =>
        rw [hi] at h
        obtain ⟨new, hnew, hws⟩ := key id h
        exact ⟨new, hnew, fun id' hid' => by rw [← Option.some.inj hid']; exact hws,
          fun hn => by simp at hn⟩
      | none =>
        rw [hi] at h
        obtain ⟨new, hnew, hws⟩ := key _ h
        exact ⟨new, hnew, fun id' hid' => by simp at hid', fun _ => hws⟩

theorem lineage_parentsIn : ParentsIn lineage {"X", "Y"} := by
  intro m
  by_cases hX : m = "X"
  · right; subst hX; simp [lineage, quiet]
  · left; simp [lineage, quiet, hX]

/-- Witness for C5 (amended).  Case (1): the reference `busybox` is a repository name
whose two tags both point at `A`, so two walks start from `A` and no lookup takes place.
Case (2): the lookup of `busybox:latest` finds the image `X`, and the one walk starts
from `X`.  Case (3): the lookup of `Y` finds nothing, and the one walk starts from `Y`. -/
theorem resolution_policy_witness :
    (∃ st', exportRef busybox 3 "busybox" State.init = some (none, st') ∧
      walkStarts st'.trace = ["A", "A"] ∧
      ∃ new, st'.trace = State.init.trace ++ new ∧ walkStarts new <+: ["A", "A"] ∧
        (none = (none : Option Err) → walkStarts new = ["A", "A"]) ∧
        ∀ ev ∈ new, ∀ name, ev.op ≠ .lookup name) ∧
    (∃ st', exportRef named 3 "busybox:latest" State.init = some (none, st') ∧
      st'.dirs = ["X", "Y"] ∧
      ∃ new, st'.trace = State.init.trace ++ ⟨.lookup "busybox:latest", .ok⟩ :: new ∧
        (∀ id, named.image "busybox:latest" = some id → walkStarts new = [id]) ∧
        (named.image "busybox:latest" = none → walkStarts new = ["busybox:latest"])) ∧
    (∃ st', exportRef named 3 "Y" State.init = some (none, st') ∧
      ∃ new, st'.trace = State.init.trace ++ ⟨.lookup "Y", .ok⟩ :: new ∧
        (∀ id, named.image "Y" = some id → walkStarts new = [id]) ∧
        (named.image "Y" = none → walkStarts new = ["Y"])) ∧
    ∃ r st', exportRef named 3 "busybox:latest" State.init = some (r, st') :=
  ⟨⟨_, rfl, rfl, (resolution_policy busybox 3 "busybox" State.init).1
      [("latest", "A"), ("1.0", "A")] rfl none _ rfl⟩,
    ⟨_, rfl, rfl, ((resolution_policy named 3 "busybox:latest" State.init).2.1 rfl).2 rfl
      none _ rfl⟩,
    ⟨_, rfl, ((resolution_policy named 3 "Y" State.init).2.1 rfl).2 rfl none _ rfl⟩,
    (resolution_policy named 3 "busybox:latest" State.init).2.2 {"X", "Y"}
      lineage_parentsIn (by decide)⟩

/-! ## References that name no image -/

/-- While a run succeeds, the metadata of every staged image has been fetched. -/
theorem inspected_refs (w : World) (fuel : Nat) (args : List String) (st : State)
    (r : Option Err) (st' : State) (h : ∀ n ∈ st.dirs, w.fail (.inspect n) = none)
    (hr : exportRefs w fuel args st = some (r, st')) :
    r = none → ∀ n ∈ st'.dirs, w.fail (.inspect n) = none := by
  refine exportRefs_rule w fuel
    (fun r s => r = none → ∀ n ∈ s.dirs, w.fail (.inspect n) = none) ?_ ?_ ?_ ?_
    args st r st' (fun _ => h) hr
  · intro n s nx s' _ hQ hs
    have hQ := hQ rfl
    rcases exportStep_spec w n s nx s' hs with ⟨-, hnx, hst⟩ |
      ⟨-, pre, op, post, e, hnx, -⟩ | ⟨hmem, hnx, hst, hall⟩
    · subst hnx; subst hst
      exact ⟨fun r hr _ => hQ, fun p hp => by simp at hp⟩
    · subst hnx
      exact ⟨fun r hr hnone => by simp only [Next.stop.injEq] at hr; rw [← hr] at hnone;
                                  simp at hnone,
        fun p hp => by simp at hp⟩
    · subst hnx; subst hst
      refine ⟨fun r hr => by simp at hr, fun p _ _ m hm => ?_⟩
      simp only [List.mem_append, List.mem_singleton] at hm
      rcases hm with hm | hm
      · exact hQ m hm
      · rw [hm]
        exact hall _ (by simp [stepOps, serialOps])
  · intro n s hQ hnone
    exact hQ hnone
  · intro name s hQ _ hnone
    exact hQ hnone
  · intro name s e _ _ hnone
    simp at hnone

/-- C6 as stated fails.  The empty string, the repository `empty` without tags and the
name `.` resolve to no image, and yet each of these requests returns success, with
nothing staged: the empty string starts no pass of the loop, the repository is ranged
over zero times, and the directory of `.` is the staging directory itself, which is
there already.  The name `../foo` resolves to no image and the call fails, but the
directory made for it lies outside the staging directory and is still there after the
deferred clean-up. -/
theorem empty_reference_succeeds :
    ((CmdImageExport strict 3 [""]).map (fun o => (o.status, o.final.dirs)) =
        some (none, []) ∧
      strict.Repositories.lookup (strict.normalize "") = none ∧
      strict.image (strict.normalize "") = none ∧
      strict.fail (.inspect (strict.normalize "")) = some "No such image") ∧
    ((CmdImageExport strict 3 ["empty"]).map (fun o => (o.status, o.final.dirs)) =
        some (none, []) ∧
      strict.Repositories.lookup (strict.normalize "empty") = some []) ∧
    ((CmdImageExport strict 3 ["."]).map (fun o => (o.status, o.final.dirs)) =
        some (none, []) ∧
      strict.Repositories.lookup (strict.normalize ".") = none ∧
      strict.image (strict.normalize ".") = none ∧
      strict.fail (.inspect (strict.normalize ".")) = some "No such image") ∧
    ((CmdImageExport strict 3 ["../foo"]).map (fun o => (o.status, o.disk)) =
        some (some "No such image",
          [["tmp", "foo"], ["tmp", "foo", "VERSION"], ["tmp", "foo", "json"]]) ∧
      strict.tempdir = ["tmp", "docker-export-1"]) :=
  ⟨⟨rfl, rfl, rfl, rfl⟩, ⟨rfl, rfl⟩, ⟨rfl, rfl, rfl, rfl⟩, rfl, rfl⟩

/-- C6, amended: a request containing a reference whose normalized string is a well
formed ID (a single path element: not empty, not `.` or `..`, without slash), is no
repository name, is found by no lookup and is unknown to the metadata collaborator never
returns success, and of the paths the call made none at or below the staging directory
is left after it; the call does return (with an error) whenever the parent relation
lives on a finite set and the fuel exceeds the size of that set. -/
theorem unknown_reference_aborts (w : World) (fuel : Nat) (args : List String) (arg : String)
    (harg : arg ∈ args) (hplain : plain (w.normalize arg) = true)
    (hrepo : w.Repositories.lookup (w.normalize arg) = none)
    (himg : w.image (w.normalize arg) = none) (e : Err)
    (hunk : w.fail (.inspect (w.normalize arg)) = some e) :
    (∀ o, CmdImageExport w fuel args = some o →
      o.status ≠ none ∧ ∀ p ∈ o.disk, below w.tempdir p = false) ∧
    (∀ U : Finset ImageID, ParentsIn w U → U.card + 1 ≤ fuel →
      ∃ o, CmdImageExport w fuel args = some o ∧ o.status ≠ none ∧
        ∀ p ∈ o.disk, below w.tempdir p = false) := by
  have key : ∀ o, CmdImageExport w fuel args = some o →
      o.status ≠ none ∧ ∀ p ∈ o.disk, below w.tempdir p = false := by
    intro o h
    obtain ⟨hdisk, hcases⟩ := CmdImageExport_spec w fuel args o h
    refine ⟨?_, hdisk⟩
    intro hok
    have hstart : w.normalize arg ∈ starts w args := by
      rw [mem_starts]
      exact ⟨arg, harg, by simp [resolveRef, hrepo, himg]⟩
    have hmem : w.normalize arg ∈ o.final.dirs :=
      ((call_dirs w fuel args o h).1 hok).2.2.2 _ hstart hplain
    rcases hcases with ⟨-, hs, -⟩ | ⟨-, e', -, hs, -⟩ | ⟨-, -, r1, st1, hrefs, hres⟩
    · rw [hs] at hok; simp at hok
    · rw [hs] at hok; simp at hok
    · rcases hres with ⟨e', -, hs, -⟩ | ⟨hr1, hfin⟩
      · rw [hs] at hok; simp at hok
      · have h1 := inspected_refs w fuel args _ r1 st1
          (fun n hn => by simp [State.init, State.log] at hn) hrefs hr1
        obtain ⟨hd, -, -⟩ := finish_spec w st1 o.status o.final hfin.symm
        rw [hd] at hmem
        have := h1 _ hmem
        rw [hunk] at this
        simp at this
  refine ⟨key, ?_⟩
  intro U hU hfuel
  obtain ⟨o, ho⟩ := CmdImageExport_returns w U hU fuel hfuel args
  exact ⟨o, ho, key o ho⟩

theorem strict_parentsIn : ParentsIn strict {"X", "Y"} := by
  intro m
  by_cases hX : m = "X"
  · right; subst hX; simp [strict, quiet, World.failing]
  · left; simp [strict, quiet, World.failing, hX]

/-- Witness for C6 (amended): the reference `Z` names no image; the request `[X, Z]`
stages `X` and `Y` and then fails at the metadata fetch for `Z`, and nothing is left. -/
theorem unknown_reference_aborts_witness :
    (CmdImageExport strict 3 ["X", "Z"]).map (fun o => (o.status, o.final.dirs, o.disk)) =
      some (some "No such image", ["X", "Y", "Z"], []) ∧
    (∀ o, CmdImageExport strict 3 ["X", "Z"] = some o →
      o.status ≠ none ∧ ∀ p ∈ o.disk, below strict.tempdir p = false) ∧
    ∃ o, CmdImageExport strict 3 ["X", "Z"] = some o ∧ o.status ≠ none ∧
      ∀ p ∈ o.disk, below strict.tempdir p = false :=
  have h := unknown_reference_aborts strict 3 ["X", "Z"] "Z" (by decide) (by decide) rfl rfl
    "No such image" rfl
  ⟨rfl, h.1, h.2 {"X", "Y"} strict_parentsIn (by decide)⟩

end Graph
